import Mathlib

/-!
A verification development for the PromptTags plugin (`src/main.py`).

Python strings are modelled as `List Char`.  Python's regex operations are
specialised to the two literal patterns the plugin compiles:

* `re.escape(header) + ".*?" + re.escape(footer)` with `re.DOTALL`, used with
  `pattern.sub("", text)`: the scan walks the text left to right; at the first
  position where `header` is a literal prefix the non-greedy `.*?` extends to
  the first occurrence of `footer`, the whole match is deleted, and scanning
  resumes after the deleted span (`subRemove`).
* `re.sub(r"\n{3,}", "\n\n", text)`: every maximal run of three or more
  newlines is replaced by exactly two (`collapseNL`).

Both are given fuel-based structural definitions (fuel = input length, which
always suffices) so that they evaluate inside the kernel.
-/

namespace PromptTags

/-- Convert a Lean string literal into the `List Char` representation used
throughout the model. -/
def str (s : String) : List Char := s.data

/-- The whitespace characters removed by Python's `str.strip()` (the ASCII
ones; every string in this development is ASCII, so the Unicode whitespace
cases of `str.strip` never arise). -/
def isPySpace (c : Char) : Bool :=
  c = ' ' || c = '\t' || c = '\n' || c = '\r' || c = Char.ofNat 11 || c = Char.ofNat 12

/-- Python `str.strip()`: drop leading and trailing whitespace. -/
def pyStrip (s : List Char) : List Char :=
  ((s.dropWhile isPySpace).reverse.dropWhile isPySpace).reverse

/-- Length of the leading run of newline characters. -/
def nlRun : List Char → Nat
  | [] => 0
  | c :: rest => if c = '\n' then nlRun rest + 1 else 0

/-- Fuel-indexed engine for `re.sub(r"\n{3,}", "\n\n", ·)`: each maximal run
of `k ≥ 3` newlines becomes two newlines, shorter runs are copied verbatim.
The fuel is always instantiated with the length of the input (see
`collapseNL`), which suffices. -/
def collapseNLF : Nat → List Char → List Char
  | 0, s => s
  | _ + 1, [] => []
  | fuel + 1, c :: rest =>
    if c = '\n' then
      (if 3 ≤ nlRun rest + 1 then str "\n\n" else List.replicate (nlRun rest + 1) '\n')
        ++ collapseNLF fuel (rest.drop (nlRun rest))
    else
      c :: collapseNLF fuel rest

/-- `re.sub(r"\n{3,}", "\n\n", s)`. -/
def collapseNL (s : List Char) : List Char := collapseNLF s.length s

/-- Index of the first occurrence of `pat` as a contiguous substring of `s`
(the position of the leftmost literal regex match / Python `str.find`). -/
def findSub (pat : List Char) : List Char → Option Nat
  | [] => if pat.isPrefixOf ([] : List Char) then some 0 else none
  | c :: rest =>
    if pat.isPrefixOf (c :: rest) then some 0 else (findSub pat rest).map (· + 1)

/-- Python's substring containment test (`pat in s`). -/
def containsSub (pat s : List Char) : Bool := (findSub pat s).isSome

/-- Fuel-indexed engine for `pattern.sub("", text)` where the pattern is
`header .*? footer` with `DOTALL`: at the leftmost position where `header`
matches, the match extends to the first following `footer`; the span is
removed and the scan resumes after it.  When `header` matches but no `footer`
follows, no match starts here or anywhere later (a later `footer` would also
follow this `header`), so the remaining text is returned unchanged.  The fuel
is always instantiated with the input length (see `subRemove`), which
suffices because every tag header is non-empty. -/
def subRemoveF (header footer : List Char) : Nat → List Char → List Char
  | 0, s => s
  | _ + 1, [] => []
  | fuel + 1, c :: rest =>
    if !header.isEmpty && header.isPrefixOf (c :: rest) then
      match findSub footer ((c :: rest).drop header.length) with
      | some i =>
          subRemoveF header footer fuel (((c :: rest).drop header.length).drop (i + footer.length))
      | none => c :: rest
    else
      c :: subRemoveF header footer fuel rest

/-- `pattern.sub("", s)` for the cleanup pattern built from `header`/`footer`. -/
def subRemove (header footer s : List Char) : List Char := subRemoveF header footer s.length s

/-- The three recognised values of `injection_position` (constructor names are
the configuration strings). -/
inductive Position where
  | user_message_before
  | user_message_after
  | system_prompt
deriving DecidableEq

/-- One loaded tag definition, as built by `_load_tags`: the dict
`{"tag_name": …, "content": …, "position": …, "header": …, "footer": …}`.
The `header`/`footer` entries are always `f"<{tag_name}>"` / `f"</{tag_name}>"`,
so they are modelled as the derived functions `Tag.header` / `Tag.footer`. -/
structure Tag where
  tag_name : List Char
  content : List Char
  position : Position
deriving DecidableEq

/-- The stored `header` field: `f"<{tag_name}>"`. -/
def Tag.header (t : Tag) : List Char := '<' :: t.tag_name ++ str ">"

/-- The stored `footer` field: `f"</{tag_name}>"`. -/
def Tag.footer (t : Tag) : List Char := '<' :: '/' :: t.tag_name ++ str ">"

/-- `_format_tag`: `f"{header}\n{content}\n{footer}\n"`. -/
def format_tag (t : Tag) : List Char :=
  t.header ++ '\n' :: t.content ++ '\n' :: t.footer ++ str "\n"

/-- A compiled cleanup regex `re.escape(header) + ".*?" + re.escape(footer)`
is determined by its two literal delimiters. -/
structure CleanupPattern where
  header : List Char
  footer : List Char
deriving DecidableEq

/-- `_build_cleanup_pattern`. -/
def build_cleanup_pattern (t : Tag) : CleanupPattern := ⟨t.header, t.footer⟩

/-- `_clean_string`: remove every pattern match, collapse newline runs of
three or more down to two, then strip outer whitespace. -/
def clean_string (text : List Char) (pattern : CleanupPattern) : List Char :=
  pyStrip (collapseNL (subRemove pattern.header pattern.footer text))

/-- One element of a multipart (list-valued) message content.
`textPart extra text` stands for a dict with `"type": "text"` and a string
`"text"` value (`extra` stands for its remaining keys, preserved by
`part.copy()`); `otherPart` stands for every other part shape (a non-dict, a
dict whose `type` is not `"text"`, or one whose `text` value is not a
string), which the code never inspects further. -/
inductive Part where
  | textPart (extra : Nat) (text : List Char)
  | otherPart (data : Nat)
deriving DecidableEq

/-- The `content` value of a dict-shaped history message: a string, a list of
parts, or anything else (`otherC`, which `_remove_tags_from_context` matches
with neither `isinstance(content, str)` nor `isinstance(content, list)`). -/
inductive MsgContent where
  | strC (s : List Char)
  | listC (parts : List Part)
  | otherC (data : Nat)
deriving DecidableEq

/-- One entry of `req.contexts`: a plain string, a dict (with its `content`
value; `extra` stands for the remaining keys, preserved by `msg.copy()`), or
any other shape. -/
inductive Message where
  | plain (s : List Char)
  | dict (extra : Nat) (content : MsgContent)
  | other (data : Nat)
deriving DecidableEq

/-- The mutable request object: `system_prompt`, `prompt` (either may be
`None`) and the history list `contexts`. -/
structure ProviderRequest where
  system_prompt : Option (List Char)
  prompt : Option (List Char)
  contexts : List Message
deriving DecidableEq

/-- The body of the per-part loop of `_remove_tags_from_context`: returns the
part kept for `cleaned_parts` (or `none` when the part is dropped), whether
`has_changes` was set, and how much `removed` was incremented.  Note that an
emptied part sets `has_changes` but does not touch `removed`. -/
def cleanPart (pattern : CleanupPattern) : Part → Option Part × Bool × Nat
  | .textPart extra text =>
    if containsSub pattern.header text && containsSub pattern.footer text then
      let cleaned := clean_string text pattern
      if cleaned.isEmpty then (none, true, 0)
      else if cleaned = text then (some (.textPart extra text), false, 0)
      else (some (.textPart extra cleaned), true, 1)
    else (some (.textPart extra text), false, 0)
  | .otherPart d => (some (.otherPart d), false, 0)

/-- The whole per-part loop: `cleaned_parts`, `has_changes`, and the total
added to `removed` by the loop body. -/
def cleanParts (pattern : CleanupPattern) : List Part → List Part × Bool × Nat
  | [] => ([], false, 0)
  | p :: ps =>
    let r := cleanPart pattern p
    let rest := cleanParts pattern ps
    ((match r.1 with
      | some q => q :: rest.1
      | none => rest.1),
     r.2.1 || rest.2.1, r.2.2 + rest.2.2)

/-- The body of the `for msg in req.contexts` loop: the message appended to
`filtered_contexts` (or `none` when the entry is dropped) and the amount
added to `removed`.  A dict whose `content` is neither a string nor a list
falls through both `isinstance` branches and is silently dropped. -/
def cleanMessage (pattern : CleanupPattern) : Message → Option Message × Nat
  | .plain s =>
    if containsSub pattern.header s && containsSub pattern.footer s then
      let cleaned := clean_string s pattern
      if cleaned.isEmpty then (none, 1)
      else if cleaned = s then (some (.plain s), 0)
      else (some (.plain cleaned), 1)
    else (some (.plain s), 0)
  | .dict extra (.strC s) =>
    if containsSub pattern.header s && containsSub pattern.footer s then
      let cleaned := clean_string s pattern
      if cleaned.isEmpty then (none, 1)
      else if cleaned = s then (some (.dict extra (.strC s)), 0)
      else (some (.dict extra (.strC cleaned)), 1)
    else (some (.dict extra (.strC s)), 0)
  | .dict extra (.listC parts) =>
    let r := cleanParts pattern parts
    if r.1.isEmpty then (none, r.2.2 + 1)
    else if r.2.1 then (some (.dict extra (.listC r.1)), r.2.2)
    else (some (.dict extra (.listC parts)), r.2.2)
  | .dict _ (.otherC _) => (none, 0)
  | .other d => (some (.other d), 0)

/-- The whole history pass: `filtered_contexts` and the total added to
`removed` (when `req.contexts` is empty the loop body never runs, which gives
the same empty result). -/
def cleanContexts (pattern : CleanupPattern) : List Message → List Message × Nat
  | [] => ([], 0)
  | m :: ms =>
    let r := cleanMessage pattern m
    let rest := cleanContexts pattern ms
    ((match r.1 with
      | some m' => m' :: rest.1
      | none => rest.1),
     r.2 + rest.2)

/-- The identical blocks cleaning `req.system_prompt` and `req.prompt`:
if the field is a truthy string containing both delimiters it is replaced by
its cleaned form, and `removed` is incremented when the value changed. -/
def cleanField (pattern : CleanupPattern) : Option (List Char) → Option (List Char) × Nat
  | none => (none, 0)
  | some s =>
    if !s.isEmpty && containsSub pattern.header s && containsSub pattern.footer s then
      let cleaned := clean_string s pattern
      (some cleaned, if cleaned = s then 0 else 1)
    else (some s, 0)

/-- `_remove_tags_from_context`: clean `system_prompt`, `prompt` and every
history entry for one tag; returns the updated request and the number of
removed fragments. -/
def remove_tags_from_context (req : ProviderRequest) (tag : Tag) : ProviderRequest × Nat :=
  let pattern := build_cleanup_pattern tag
  let sysR := cleanField pattern req.system_prompt
  let promptR := cleanField pattern req.prompt
  let ctxR := cleanContexts pattern req.contexts
  (⟨sysR.1, promptR.1, ctxR.1⟩, sysR.2 + promptR.2 + ctxR.2)

/-- `x or ""` for an optional string field. -/
def orEmpty : Option (List Char) → List Char
  | none => []
  | some s => s

/-- `"\n\n".join(blocks)`. -/
def joinNN : List (List Char) → List Char
  | [] => []
  | [b] => b
  | b :: bs => b ++ str "\n\n" ++ joinNN bs

/-- The `by_position` bucket for one anchor: the formatted blocks of the tags
configured at that position, in slot order. -/
def bucket (tags : List Tag) (p : Position) : List (List Char) :=
  (tags.filter fun t => t.position = p).map format_tag

/-- Phase 2 of `handle_inject_tags` (the injection phase): for each non-empty
bucket, join its blocks with a blank line and prepend/append them to
`prompt` / `system_prompt`. -/
def inject_tags (tags : List Tag) (req : ProviderRequest) : ProviderRequest :=
  let bBefore := bucket tags Position.user_message_before
  let bAfter := bucket tags Position.user_message_after
  let bSystem := bucket tags Position.system_prompt
  let p1 : Option (List Char) :=
    if bBefore = [] then req.prompt
    else some (joinNN bBefore ++ str "\n\n" ++ orEmpty req.prompt)
  let p2 : Option (List Char) :=
    if bAfter = [] then p1
    else some (orEmpty p1 ++ str "\n\n" ++ joinNN bAfter)
  let s2 : Option (List Char) :=
    if bSystem = [] then req.system_prompt
    else some (orEmpty req.system_prompt ++ str "\n\n" ++ joinNN bSystem)
  ⟨s2, p2, req.contexts⟩

/-- Phase 1 of `handle_inject_tags`: `_remove_tags_from_context` for every
active tag in registry order, summing the counts. -/
def cleanup_all (tags : List Tag) (req : ProviderRequest) : ProviderRequest × Nat :=
  tags.foldl (fun acc t =>
    let r := remove_tags_from_context acc.1 t
    (r.1, acc.2 + r.2)) (req, 0)

/-- `handle_inject_tags`: no-op when no tags are active, otherwise cleanup of
every tag followed by one injection pass.  (The surrounding `try/except`
fail-open wrapper has no counterpart here: the model is total.) -/
def handle_inject_tags (tags : List Tag) (req : ProviderRequest) : ProviderRequest :=
  if tags = [] then req
  else inject_tags tags (cleanup_all tags req).1

/-- The character class of `TAG_NAME_PATTERN`, `[A-Za-z0-9_-]`. -/
def isNameChar (c : Char) : Bool :=
  ('A' ≤ c && c ≤ 'Z') || ('a' ≤ c && c ≤ 'z') || ('0' ≤ c && c ≤ '9') || c = '_' || c = '-'

/-- `TAG_NAME_PATTERN.match(s)` as a boolean: `^[A-Za-z0-9_-]+$` under
Python `re.match` semantics, where `$` also matches just before one trailing
newline.  (The trailing-newline alternative is unreachable in the plugin
because the name is stripped first.) -/
def matchTagName (s : List Char) : Bool :=
  (!s.isEmpty && s.all isNameChar) ||
    (s.getLast? == some '\n' && !s.dropLast.isEmpty && s.dropLast.all isNameChar)

/-- `content.replace("\\n", "\n")`: each literal two-character backslash-n
sequence becomes a real newline, scanning left to right. -/
def unescapeNewlines : List Char → List Char
  | [] => []
  | [c] => [c]
  | a :: b :: rest =>
    if a = '\\' && b = 'n' then '\n' :: unescapeNewlines rest
    else a :: unescapeNewlines (b :: rest)

/-- One configuration slot as read by `_load_tags` (after the `str(...)`
conversions; a missing key is the corresponding default). -/
structure TagSlot where
  enabled : Bool
  tag_name : List Char
  content : List Char
  injection_position : List Char
deriving DecidableEq

/-- Whether a (stripped) `injection_position` value is one of the three
recognised anchors. -/
def recognizedPosition (s : List Char) : Bool :=
  decide (s = str "user_message_before") || decide (s = str "user_message_after")
    || decide (s = str "system_prompt")

/-- The `position` validation of `_load_tags`: an unrecognised value falls
back to `user_message_after`. -/
def parse_position (s : List Char) : Position :=
  if s = str "user_message_before" then Position.user_message_before
  else if s = str "user_message_after" then Position.user_message_after
  else if s = str "system_prompt" then Position.system_prompt
  else Position.user_message_after

/-- The per-slot body of `_load_tags`: `none` when the slot is skipped
(disabled, empty/invalid name, or empty content), otherwise the loaded tag. -/
def load_tag (slot : TagSlot) : Option Tag :=
  if !slot.enabled then none
  else
    let tag_name := pyStrip slot.tag_name
    let content := pyStrip (unescapeNewlines slot.content)
    let position := pyStrip slot.injection_position
    if tag_name.isEmpty then none
    else if !matchTagName tag_name then none
    else if content.isEmpty then none
    else some ⟨tag_name, content, parse_position position⟩

/-- A raw configuration value stored under a `tag_i` key: a dict (slot) or
anything else, which `_load_tags` skips with `isinstance(slot, dict)`. -/
inductive SlotValue where
  | dictSlot (slot : TagSlot)
  | nonDict (data : Nat)
deriving DecidableEq

/-- `MAX_TAGS`. -/
def MAX_TAGS : Nat := 5

/-- `_load_tags` over the values of the keys `tag_1..tag_5` (slots beyond
`MAX_TAGS` are never read). -/
def load_tags (config : List SlotValue) : List Tag :=
  (config.take MAX_TAGS).filterMap fun v =>
    match v with
    | .dictSlot slot => load_tag slot
    | .nonDict _ => none

/-- The text of a text-kind part, if any. -/
def partText? : Part → Option (List Char)
  | .textPart _ t => some t
  | .otherPart _ => none

/-- The text surfaces of one history entry: the strings that cleanup can
inspect and rewrite. -/
def msgSurfaces : Message → List (List Char)
  | .plain s => [s]
  | .dict _ (.strC s) => [s]
  | .dict _ (.listC ps) => ps.filterMap partText?
  | .dict _ (.otherC _) => []
  | .other _ => []

/-- The surfaces of an optional prompt field. -/
def optSurface : Option (List Char) → List (List Char)
  | none => []
  | some s => [s]

/-- Every text surface of a request: `system_prompt`, `prompt`, and the
surfaces of each history entry. -/
def textSurfaces (req : ProviderRequest) : List (List Char) :=
  optSurface req.system_prompt ++ optSurface req.prompt
    ++ (req.contexts.map msgSurfaces).flatten

/-- A string that does not contain both delimiters of a pattern (the state
the cleanup invariant asks for). -/
def lacksBoth (pattern : CleanupPattern) (s : List Char) : Bool :=
  !(containsSub pattern.header s && containsSub pattern.footer s)

/-- A string whose single-pass regex removal leaves no header/footer pair
behind (removal of nested occurrences can splice one together). -/
def residualFree (pattern : CleanupPattern) (s : List Char) : Bool :=
  lacksBoth pattern (subRemove pattern.header pattern.footer s)

/-- A tag whose name is non-empty and made only of the characters admitted by
`TAG_NAME_PATTERN`; every tag built by `_load_tags` satisfies this (the name
is stripped, so the trailing-newline reading of `$` never fires). -/
def validTagName (t : Tag) : Bool :=
  !t.tag_name.isEmpty && t.tag_name.all isNameChar

/-- A text part that cleanup empties and drops. -/
def partVanishes (pattern : CleanupPattern) : Part → Bool
  | .textPart _ t =>
    containsSub pattern.header t && containsSub pattern.footer t
      && (clean_string t pattern).isEmpty
  | .otherPart _ => false

/-- A text part that cleanup replaces with changed, non-empty text (the only
part outcome that increments the removal counter). -/
def partReplaced (pattern : CleanupPattern) : Part → Bool
  | .textPart _ t =>
    containsSub pattern.header t && containsSub pattern.footer t
      && !(clean_string t pattern).isEmpty && !(decide (clean_string t pattern = t))
  | .otherPart _ => false

/-- A history entry whose entire content cleanup consumes: a plain string or
string-content dict whose cleaned text is empty, or a multipart dict all of
whose parts are emptied and dropped. -/
def fullyConsumed (pattern : CleanupPattern) : Message → Bool
  | .plain s =>
    containsSub pattern.header s && containsSub pattern.footer s
      && (clean_string s pattern).isEmpty
  | .dict _ (.strC s) =>
    containsSub pattern.header s && containsSub pattern.footer s
      && (clean_string s pattern).isEmpty
  | .dict _ (.listC ps) => ps.all (partVanishes pattern)
  | .dict _ (.otherC _) => false
  | .other _ => false

/-- The userPrompt composition rule as the specification words it: an
optional joined before-block and `"\n\n"`, then the original prompt (or
`""`), then `"\n\n"` and an optional joined after-block; the prompt is left
alone when both buckets are empty.  (Spec-side definition, to be compared
with `inject_tags`.) -/
def specUserPromptComposition (before after : List (List Char)) (orig : Option (List Char)) :
    Option (List Char) :=
  if before = [] ∧ after = [] then orig
  else some ((if before = [] then [] else joinNN before ++ str "\n\n")
    ++ orEmpty orig
    ++ (if after = [] then [] else str "\n\n" ++ joinNN after))

/-! ### Basic facts about substring containment -/

/-- A prefix occurrence is an occurrence. -/
theorem contains_of_isPre {pat s : List Char} (h : pat.isPrefixOf s = true) :
    containsSub pat s = true := by
  cases s <;> simp [containsSub, findSub, h]

/-- Containment is preserved by extending the string on the left by one
character. -/
theorem contains_cons {pat s : List Char} (c : Char) (h : containsSub pat s = true) :
    containsSub pat (c :: s) = true := by
  by_cases hp : pat.isPrefixOf (c :: s) = true
  · exact contains_of_isPre hp
  · simpa [containsSub, findSub, hp] using h

/-- Containment is preserved by extending the string on the right. -/
theorem contains_append_right {pat s : List Char} (y : List Char)
    (h : containsSub pat s = true) : containsSub pat (s ++ y) = true := by
  induction s with
  | nil =>
    have hp : pat = [] := by
      by_cases hp : pat.isPrefixOf ([] : List Char) = true
      · simpa using hp
      · simp [containsSub, findSub, hp] at h
    subst hp
    exact contains_of_isPre (by simp)
  | cons c s ih =>
    by_cases hp : pat.isPrefixOf (c :: s) = true
    · have h1 : pat <+: (c :: s) := by simpa using hp
      have h2 : pat.isPrefixOf ((c :: s) ++ y) = true := by
        simpa using h1.trans (List.prefix_append _ _)
      exact contains_of_isPre h2
    · have hs : containsSub pat s = true := by
        simpa [containsSub, findSub, hp] using h
      simpa using contains_cons c (ih hs)

/-- Containment is preserved by extending the string on the left. -/
theorem contains_append_left {pat s : List Char} (x : List Char)
    (h : containsSub pat s = true) : containsSub pat (x ++ s) = true := by
  induction x with
  | nil => simpa using h
  | cons c x ih => simpa using contains_cons c ih

/-- An occurrence in a suffix obtained by `drop` is an occurrence. -/
theorem contains_of_drop {pat s : List Char} {n : Nat}
    (h : containsSub pat (s.drop n) = true) : containsSub pat s = true := by
  have heq : s = s.take n ++ s.drop n := (List.take_append_drop n s).symm
  rw [heq]
  exact contains_append_left _ h

/-- An occurrence in a suffix is an occurrence. -/
theorem contains_of_suffix {pat s t : List Char} (hsuf : t <:+ s)
    (h : containsSub pat t = true) : containsSub pat s = true := by
  obtain ⟨u, rfl⟩ := hsuf
  exact contains_append_left u h

/-- An occurrence in a prefix is an occurrence. -/
theorem contains_of_pre {pat s t : List Char} (hpre : t <+: s)
    (h : containsSub pat t = true) : containsSub pat s = true := by
  obtain ⟨u, rfl⟩ := hpre
  exact contains_append_right u h

/-- Stripping cannot create occurrences: anything contained in `pyStrip s` is
contained in `s`. -/
theorem contains_pyStrip {pat s : List Char}
    (h : containsSub pat (pyStrip s) = true) : containsSub pat s = true := by
  unfold pyStrip at h
  have h1 : ((s.dropWhile isPySpace).reverse.dropWhile isPySpace).reverse
      <+: (s.dropWhile isPySpace) := by
    rw [← List.reverse_suffix]
    simpa using List.dropWhile_suffix (l := (s.dropWhile isPySpace).reverse) isPySpace
  exact contains_of_suffix (List.dropWhile_suffix _) (contains_of_pre h1 h)

/-! ### Fuel elimination for `subRemove` and `collapseNL` -/

/-- The fuel argument of `subRemoveF` is irrelevant once it reaches the input
length. -/
theorem subRemoveF_canon (header footer : List Char) :
    ∀ (n : Nat) (s : List Char), s.length ≤ n →
      subRemoveF header footer n s = subRemove header footer s := by
  intro n
  induction n using Nat.strong_induction_on with
  | _ n ih =>
    intro s hs
    match n, s with
    | 0, s =>
      have hnil : s = [] := by
        cases s with
        | nil => rfl
        | cons a l => simp at hs
      subst hnil; rfl
    | Nat.succ m, [] => rfl
    | Nat.succ m, c :: rest =>
      have hrest : rest.length ≤ m := by
        simpa [Nat.succ_le_succ_iff] using hs
      show subRemoveF header footer (m + 1) (c :: rest)
          = subRemoveF header footer (rest.length + 1) (c :: rest)
      rw [subRemoveF, subRemoveF]
      by_cases hg : (!header.isEmpty && header.isPrefixOf (c :: rest)) = true
      · have hhead : 0 < header.length := by
          have h1 : header ≠ [] := by
            intro hnil
            subst hnil
            simp at hg
          exact List.length_pos.mpr h1
        simp only [hg, if_true]
        rcases hfind : findSub footer ((c :: rest).drop header.length) with _ | i
        · rfl
        · dsimp only
          have hR : (((c :: rest).drop header.length).drop (i + footer.length)).length
              ≤ rest.length := by
            simp only [List.length_drop, List.length_cons]
            omega
          rw [ih m (Nat.lt_succ_self m) _ (le_trans hR hrest),
            ih rest.length (Nat.lt_succ_of_le hrest) _ hR]
      · simp only [hg, if_false, Bool.false_eq_true]
        rw [ih m (Nat.lt_succ_self m) _ hrest,
          ih rest.length (Nat.lt_succ_of_le hrest) _ le_rfl]

/-- `subRemove` on the empty string. -/
theorem subRemove_nil (header footer : List Char) : subRemove header footer [] = [] := rfl

/-- `subRemove` steps over a position where no match starts. -/
theorem subRemove_cons_neg {header footer : List Char} {c : Char} {rest : List Char}
    (hg : ¬ (!header.isEmpty && header.isPrefixOf (c :: rest)) = true) :
    subRemove header footer (c :: rest) = c :: subRemove header footer rest := by
  show subRemoveF header footer (rest.length + 1) (c :: rest) = _
  rw [subRemoveF]
  simp only [hg, if_false, Bool.false_eq_true]
  rw [subRemoveF_canon header footer rest.length rest le_rfl]

/-- `subRemove` removes a match: `header` at the current position through the
first following `footer`, then continues after the removed span. -/
theorem subRemove_cons_match {header footer : List Char} {c : Char} {rest : List Char} {i : Nat}
    (hg : (!header.isEmpty && header.isPrefixOf (c :: rest)) = true)
    (hfind : findSub footer ((c :: rest).drop header.length) = some i) :
    subRemove header footer (c :: rest)
      = subRemove header footer (((c :: rest).drop header.length).drop (i + footer.length)) := by
  show subRemoveF header footer (rest.length + 1) (c :: rest) = _
  rw [subRemoveF]
  simp only [hg, if_true, hfind]
  have hhead : 0 < header.length := by
    have h1 : header ≠ [] := by
      intro hnil
      subst hnil
      simp at hg
    exact List.length_pos.mpr h1
  apply subRemoveF_canon
  simp only [List.length_drop, List.length_cons]
  omega

/-- `subRemove` stops when `header` matches but no `footer` follows. -/
theorem subRemove_cons_nofoot {header footer : List Char} {c : Char} {rest : List Char}
    (hg : (!header.isEmpty && header.isPrefixOf (c :: rest)) = true)
    (hfind : findSub footer ((c :: rest).drop header.length) = none) :
    subRemove header footer (c :: rest) = c :: rest := by
  show subRemoveF header footer (rest.length + 1) (c :: rest) = _
  rw [subRemoveF]
  simp only [hg, if_true, hfind]

/-- The fuel argument of `collapseNLF` is irrelevant once it reaches the
input length. -/
theorem collapseNLF_canon :
    ∀ (n : Nat) (s : List Char), s.length ≤ n → collapseNLF n s = collapseNL s := by
  intro n
  induction n using Nat.strong_induction_on with
  | _ n ih =>
    intro s hs
    match n, s with
    | 0, s =>
      have hnil : s = [] := by
        cases s with
        | nil => rfl
        | cons a l => simp at hs
      subst hnil; rfl
    | Nat.succ m, [] => rfl
    | Nat.succ m, c :: rest =>
      have hrest : rest.length ≤ m := by
        simpa [Nat.succ_le_succ_iff] using hs
      show collapseNLF (m + 1) (c :: rest) = collapseNLF (rest.length + 1) (c :: rest)
      rw [collapseNLF, collapseNLF]
      by_cases hc : c = '\n'
      · simp only [hc, if_true]
        have hR : (rest.drop (nlRun rest)).length ≤ rest.length := by
          simp only [List.length_drop]; omega
        rw [ih m (Nat.lt_succ_self m) _ (le_trans hR hrest),
          ih rest.length (Nat.lt_succ_of_le hrest) _ hR]
      · simp only [hc, if_false]
        rw [ih m (Nat.lt_succ_self m) _ hrest,
          ih rest.length (Nat.lt_succ_of_le hrest) _ le_rfl]

/-- `collapseNL` on the empty string. -/
theorem collapseNL_nil : collapseNL [] = [] := rfl

/-- `collapseNL` copies a non-newline character. -/
theorem collapseNL_cons_neg {c : Char} {rest : List Char} (hc : ¬ c = '\n') :
    collapseNL (c :: rest) = c :: collapseNL rest := by
  show collapseNLF (rest.length + 1) (c :: rest) = _
  rw [collapseNLF]
  simp only [hc, if_false]
  rw [collapseNLF_canon rest.length rest le_rfl]

/-- `collapseNL` rewrites a maximal newline run. -/
theorem collapseNL_cons_nl (rest : List Char) :
    collapseNL ('\n' :: rest)
      = (if 3 ≤ nlRun rest + 1 then str "\n\n" else List.replicate (nlRun rest + 1) '\n')
        ++ collapseNL (rest.drop (nlRun rest)) := by
  show collapseNLF (rest.length + 1) ('\n' :: rest) = _
  rw [collapseNLF]
  simp only [if_true]
  rw [collapseNLF_canon rest.length _ (by simp only [List.length_drop]; omega)]

/-! ### Prefix decomposition and first-occurrence computations -/

/-- Only the empty pattern is a prefix of the empty string. -/
theorem eq_nil_of_isPre_nil {pat : List Char} (h : pat.isPrefixOf ([] : List Char) = true) :
    pat = [] := by
  cases pat with
  | nil => rfl
  | cons a l => simp [List.isPrefixOf] at h

/-- A non-empty pattern is never a prefix of the empty string. -/
theorem isPre_nil_false {pat : List Char} (hne : pat ≠ []) :
    pat.isPrefixOf ([] : List Char) = false := by
  cases pat with
  | nil => exact absurd rfl hne
  | cons a l => rfl

/-- Decompose a prefix of a cons cell. -/
theorem isPre_cons_elim {pat : List Char} {c : Char} {s : List Char}
    (h : pat.isPrefixOf (c :: s) = true) :
    pat = [] ∨ ∃ pat', pat = c :: pat' ∧ pat'.isPrefixOf s = true := by
  cases pat with
  | nil => exact Or.inl rfl
  | cons a l =>
    simp only [List.isPrefixOf, Bool.and_eq_true, beq_iff_eq] at h
    exact Or.inr ⟨l, by rw [h.1], h.2⟩

/-- A pattern without a newline that matches at the start of `x ++ "\n" ++ y`
already matches at the start of `x`. -/
theorem isPre_stop_at_nl {pat y : List Char} (hnl : '\n' ∉ pat) :
    ∀ {x : List Char}, pat.isPrefixOf (x ++ '\n' :: y) = true → pat.isPrefixOf x = true := by
  intro x
  induction x generalizing pat with
  | nil =>
    intro h
    rw [List.nil_append] at h
    rcases isPre_cons_elim h with h0 | ⟨pat', rfl, _⟩
    · subst h0; simp
    · exact ((hnl (List.mem_cons_self _ _)).elim)
  | cons a x ih =>
    intro h
    rw [List.cons_append] at h
    rcases isPre_cons_elim h with h0 | ⟨pat', rfl, hp⟩
    · subst h0; simp
    · have hnl' : '\n' ∉ pat' := fun hm => hnl (List.mem_cons_of_mem _ hm)
      have h2 := ih hnl' hp
      simpa [List.isPrefixOf] using h2

/-- A non-empty newline-free pattern cannot match at a newline. -/
theorem not_isPre_nl {pat z : List Char} (hne : pat ≠ []) (hnl : '\n' ∉ pat) :
    ¬ pat.isPrefixOf ('\n' :: z) = true := by
  intro h
  rcases isPre_cons_elim h with h0 | ⟨pat', rfl, _⟩
  · exact hne h0
  · exact hnl (List.mem_cons_self _ _)

/-- Unfolding step of `findSub` at a position where the pattern does not
match. -/
theorem findSub_cons_neg {pat : List Char} {c : Char} {s : List Char}
    (hp : ¬ pat.isPrefixOf (c :: s) = true) :
    findSub pat (c :: s) = (findSub pat s).map (· + 1) := by
  simp [findSub, hp]

/-- `findSub` positions are in bounds. -/
theorem findSub_bound {pat : List Char} :
    ∀ {s : List Char} {i : Nat}, findSub pat s = some i → i + pat.length ≤ s.length := by
  intro s
  induction s with
  | nil =>
    intro i h
    by_cases hp : pat.isPrefixOf ([] : List Char) = true
    · have h0 := eq_nil_of_isPre_nil hp
      subst h0
      simp [findSub] at h
      omega
    · simp [findSub, hp] at h
  | cons c rest ih =>
    intro i h
    by_cases hp : pat.isPrefixOf (c :: rest) = true
    · simp only [findSub, hp, if_true, Option.some.injEq] at h
      subst h
      have h1 : pat <+: (c :: rest) := by simpa using hp
      simpa using h1.length_le
    · rw [findSub_cons_neg hp] at h
      rcases Option.map_eq_some'.mp h with ⟨j, hj, rfl⟩
      have := ih hj
      simp only [List.length_cons]
      omega

/-- The pattern is found at position 0 of `pat ++ r`. -/
theorem findSub_self_append {pat : List Char} (r : List Char) (hne : pat ≠ []) :
    findSub pat (pat ++ r) = some 0 := by
  cases pat with
  | nil => exact absurd rfl hne
  | cons a l =>
    have hp : (a :: l).isPrefixOf ((a :: l) ++ r) = true := by simp
    rw [List.cons_append] at hp ⊢
    simp [findSub, hp]

/-- Containment in a tail propagates to the cons cell being false. -/
theorem contains_false_of_cons {pat s : List Char} {c : Char}
    (h : containsSub pat (c :: s) = false) : containsSub pat s = false := by
  cases hc : containsSub pat s with
  | false => rfl
  | true => rw [contains_cons c hc] at h; simp at h

/-- Non-containment restricts to suffixes obtained by `drop`. -/
theorem contains_false_drop {pat s : List Char} (n : Nat)
    (h : containsSub pat s = false) : containsSub pat (s.drop n) = false := by
  cases hc : containsSub pat (s.drop n) with
  | false => rfl
  | true => rw [contains_of_drop hc] at h; simp at h

/-- Where the first occurrence of a newline-free pattern sits in
`c ++ "\n" ++ pat ++ r` when it does not occur inside `c`. -/
theorem findSub_after_sep {pat : List Char} (hne : pat ≠ []) (hnl : '\n' ∉ pat) :
    ∀ {c : List Char} (r : List Char), containsSub pat c = false →
      findSub pat (c ++ ('\n' :: (pat ++ r))) = some (c.length + 1) := by
  intro c
  induction c with
  | nil =>
    intro r _
    rw [List.nil_append, findSub_cons_neg (not_isPre_nl hne hnl),
      findSub_self_append r hne]
    rfl
  | cons a c' ih =>
    intro r hc
    have hc' : containsSub pat c' = false := contains_false_of_cons hc
    have hpre : ¬ pat.isPrefixOf (a :: (c' ++ ('\n' :: (pat ++ r)))) = true := by
      intro h
      have h2 : pat.isPrefixOf (a :: c') = true := by
        apply isPre_stop_at_nl (y := pat ++ r) hnl
        simpa using h
      rw [contains_of_isPre h2] at hc
      simp at hc
    rw [List.cons_append, findSub_cons_neg hpre, ih r hc']
    simp [List.length_cons]

/-- A newline-free pattern does not occur in a string of newlines. -/
theorem contains_nl_str_false {pat : List Char} (hne : pat ≠ []) (hnl : '\n' ∉ pat) :
    ∀ {z : List Char}, (∀ c ∈ z, c = '\n') → containsSub pat z = false := by
  intro z
  induction z with
  | nil => simp [containsSub, findSub, isPre_nil_false hne]
  | cons c z ih =>
    intro hz
    have hcn : c = '\n' := hz c (by simp)
    subst hcn
    have := ih (fun c hc => hz c (List.mem_cons_of_mem _ hc))
    unfold containsSub at this ⊢
    rw [findSub_cons_neg (not_isPre_nl hne hnl)]
    simpa using this

/-- `findSub` finds nothing exactly when containment fails. -/
theorem findSub_eq_none {pat s : List Char} (h : containsSub pat s = false) :
    findSub pat s = none := by
  unfold containsSub at h
  cases hf : findSub pat s with
  | none => rfl
  | some i => rw [hf] at h; simp at h

/-- Removal is the identity whenever one of the delimiters is absent (in
particular, the pattern cannot match). -/
theorem subRemove_eq_self {header footer : List Char} :
    ∀ {s : List Char},
      containsSub header s = false ∨ containsSub footer s = false →
      subRemove header footer s = s := by
  intro s
  induction s with
  | nil => intro _; rfl
  | cons c rest ih =>
    intro h
    by_cases hg : (!header.isEmpty && header.isPrefixOf (c :: rest)) = true
    · have hpre : header.isPrefixOf (c :: rest) = true := by
        cases hx : header.isPrefixOf (c :: rest) with
        | true => rfl
        | false => rw [hx] at hg; simp at hg
      rcases h with h | h
      · rw [contains_of_isPre hpre] at h; simp at h
      · have hf : containsSub footer ((c :: rest).drop header.length) = false :=
          contains_false_drop _ h
        exact subRemove_cons_nofoot hg (findSub_eq_none hf)
    · rw [subRemove_cons_neg hg]
      have h' : containsSub header rest = false ∨ containsSub footer rest = false := by
        rcases h with h | h
        · exact Or.inl (contains_false_of_cons h)
        · exact Or.inr (contains_false_of_cons h)
      rw [ih h']

/-! ### Newline collapsing cannot create occurrences -/

/-- Collapsing never changes the first character. -/
theorem collapseNL_head? (s : List Char) : (collapseNL s).head? = s.head? := by
  cases s with
  | nil => rfl
  | cons c rest =>
    by_cases hc : c = '\n'
    · subst hc
      rw [collapseNL_cons_nl]
      by_cases h3 : 3 ≤ nlRun rest + 1
      · simp [h3, str]
      · simp [h3, List.replicate_succ]
    · rw [collapseNL_cons_neg hc]
      rfl

/-- A newline-free pattern matching at the start of the collapsed string
matches at the start of the original. -/
theorem isPre_collapse :
    ∀ (n : Nat) {pat : List Char}, '\n' ∉ pat →
      ∀ {s : List Char}, s.length ≤ n →
        pat.isPrefixOf (collapseNL s) = true → pat.isPrefixOf s = true := by
  intro n
  induction n with
  | zero =>
    intro pat _ s hs h
    have hnil : s = [] := by cases s <;> simp_all
    subst hnil
    rwa [collapseNL_nil] at h
  | succ m ih =>
    intro pat hnl s hs h
    cases s with
    | nil => rwa [collapseNL_nil] at h
    | cons c rest =>
      by_cases hc : c = '\n'
      · subst hc
        cases hp : pat with
        | nil => simp
        | cons a l =>
          subst hp
          have hh : (collapseNL ('\n' :: rest)).head? = some '\n' := by
            rw [collapseNL_head?]; rfl
          cases hcol : collapseNL ('\n' :: rest) with
          | nil => rw [hcol, isPre_nil_false (by simp)] at h; simp at h
          | cons b z =>
            rw [hcol] at h hh
            rcases isPre_cons_elim h with h0 | ⟨p', hpe, _⟩
            · simp at h0
            · have hb : b = '\n' := by simpa using hh
              have ha : a = b := by
                have := congrArg List.head? hpe
                simpa using this
              exact ((hnl (by simp [ha, hb])).elim)
      · rw [collapseNL_cons_neg hc] at h
        rcases isPre_cons_elim h with h0 | ⟨p', hpe, hpp⟩
        · subst h0; simp
        · subst hpe
          have hnl' : '\n' ∉ p' := fun hm => hnl (List.mem_cons_of_mem _ hm)
          have hrest : rest.length ≤ m := by
            simpa [Nat.succ_le_succ_iff] using hs
          have h2 := ih hnl' hrest hpp
          simpa [List.isPrefixOf] using h2

/-- Containment is unaffected by a leading newline the pattern cannot use. -/
theorem contains_nl_cons {pat z : List Char} (hne : pat ≠ []) (hnl : '\n' ∉ pat) :
    containsSub pat ('\n' :: z) = containsSub pat z := by
  unfold containsSub
  rw [findSub_cons_neg (not_isPre_nl hne hnl)]
  simp

/-- Containment is unaffected by a leading all-newline block the pattern
cannot use. -/
theorem contains_nl_block {pat z : List Char} (hne : pat ≠ []) (hnl : '\n' ∉ pat) :
    ∀ {b : List Char}, (∀ c ∈ b, c = '\n') →
      containsSub pat (b ++ z) = containsSub pat z := by
  intro b
  induction b with
  | nil => intro _; simp
  | cons c b ih =>
    intro hb
    have hc : c = '\n' := hb c (by simp)
    subst hc
    rw [List.cons_append, contains_nl_cons hne hnl]
    exact ih (fun c hc => hb c (List.mem_cons_of_mem _ hc))

/-- Collapsing newline runs cannot create an occurrence of a newline-free
pattern. -/
theorem contains_collapse :
    ∀ (n : Nat) {pat : List Char}, pat ≠ [] → '\n' ∉ pat →
      ∀ {s : List Char}, s.length ≤ n →
        containsSub pat (collapseNL s) = true → containsSub pat s = true := by
  intro n
  induction n with
  | zero =>
    intro pat _ _ s hs h
    have hnil : s = [] := by cases s <;> simp_all
    subst hnil
    simpa using h
  | succ m ih =>
    intro pat hne hnl s hs h
    cases s with
    | nil => simpa using h
    | cons c rest =>
      have hrest : rest.length ≤ m := by simpa [Nat.succ_le_succ_iff] using hs
      by_cases hc : c = '\n'
      · subst hc
        rw [collapseNL_cons_nl] at h
        have hb : ∀ d ∈ (if 3 ≤ nlRun rest + 1 then str "\n\n"
            else List.replicate (nlRun rest + 1) '\n'), d = '\n' := by
          by_cases h3 : 3 ≤ nlRun rest + 1 <;> simp [h3, str]
        rw [contains_nl_block hne hnl hb] at h
        have hlen : (rest.drop (nlRun rest)).length ≤ m := by
          simp only [List.length_drop]
          omega
        have h2 := ih hne hnl hlen h
        exact contains_cons _ (contains_of_drop h2)
      · rw [collapseNL_cons_neg hc] at h
        by_cases hp : pat.isPrefixOf (c :: collapseNL rest) = true
        · rcases isPre_cons_elim hp with h0 | ⟨p', hpe, hpp⟩
          · exact absurd h0 hne
          · subst hpe
            have hnl' : '\n' ∉ p' := fun hm => hnl (List.mem_cons_of_mem _ hm)
            have h2 := isPre_collapse rest.length hnl' le_rfl hpp
            exact contains_of_isPre (by simp [List.isPrefixOf, h2])
        · have h2 : containsSub pat (collapseNL rest) = true := by
            unfold containsSub at h ⊢
            rw [findSub_cons_neg hp] at h
            simpa using h
          exact contains_cons c (ih hne hnl hrest h2)

/-- Anything contained in `clean_string s P` was already contained in the
pure removal result `subRemove P.header P.footer s` (for a non-empty
newline-free pattern). -/
theorem contains_clean_string {pat s : List Char} {P : CleanupPattern}
    (hne : pat ≠ []) (hnl : '\n' ∉ pat)
    (h : containsSub pat (clean_string s P) = true) :
    containsSub pat (subRemove P.header P.footer s) = true := by
  unfold clean_string at h
  exact contains_collapse _ hne hnl le_rfl (contains_pyStrip h)

/-! ### Newline run arithmetic and idempotence ingredients -/

/-- A string is its leading newline run followed by the rest. -/
theorem nlRun_split : ∀ (z : List Char),
    List.replicate (nlRun z) '\n' ++ z.drop (nlRun z) = z := by
  intro z
  induction z with
  | nil => rfl
  | cons c r ih =>
    by_cases hc : c = '\n'
    · subst hc
      show List.replicate (nlRun ('\n' :: r)) '\n' ++ _ = _
      have hrun : nlRun ('\n' :: r) = nlRun r + 1 := by simp [nlRun]
      rw [hrun, List.replicate_succ, List.drop_succ_cons, List.cons_append, ih]
    · have hrun : nlRun (c :: r) = 0 := by simp [nlRun, hc]
      rw [hrun]
      rfl

/-- A leading run of two or more newlines exposes two newline characters. -/
theorem nlRun_ge_two {z : List Char} (h : 2 ≤ nlRun z) :
    ∃ z', z = '\n' :: '\n' :: z' := by
  cases z with
  | nil => simp [nlRun] at h
  | cons c r =>
    by_cases hc : c = '\n'
    · subst hc
      cases r with
      | nil => simp [nlRun] at h
      | cons d r' =>
        by_cases hd : d = '\n'
        · subst hd; exact ⟨r', rfl⟩
        · simp [nlRun, hd] at h
    · simp [nlRun, hc] at h

/-- The character just after the leading newline run is not a newline. -/
theorem nlRun_drop_head : ∀ (z : List Char) (d : Char),
    (z.drop (nlRun z)).head? = some d → d ≠ '\n' := by
  intro z
  induction z with
  | nil => intro d h; simp at h
  | cons c r ih =>
    by_cases hc : c = '\n'
    · subst hc
      intro d h
      have hrun : nlRun ('\n' :: r) = nlRun r + 1 := by simp [nlRun]
      rw [hrun, List.drop_succ_cons] at h
      exact ih d h
    · intro d h
      have hrun : nlRun (c :: r) = 0 := by simp [nlRun, hc]
      rw [hrun] at h
      simp at h
      rw [← h]
      exact hc

/-- A pattern starting with a newline cannot match where the string does not
start with one. -/
theorem isPre_nl_head_elim {p Z : List Char} (hp : p ≠ [])
    (hph : p.head? = some '\n')
    (hhead : ∀ d, Z.head? = some d → d ≠ '\n') :
    ¬ p.isPrefixOf Z = true := by
  intro h
  cases Z with
  | nil => rw [isPre_nil_false hp] at h; simp at h
  | cons d z =>
    rcases isPre_cons_elim h with h0 | ⟨p', hpe, _⟩
    · exact hp h0
    · have hpd : p.head? = some d := by rw [hpe]; rfl
      rw [hph] at hpd
      have hd : d = '\n' := by simpa using hpd.symm
      exact hhead d rfl hd

/-- Padding a `"\n\n\n"`-free string that does not start with a newline by at
most two newlines keeps it `"\n\n\n"`-free. -/
theorem nl3_not_in_pad {Z : List Char}
    (hZ : containsSub (str "\n\n\n") Z = false)
    (hhead : ∀ d, Z.head? = some d → d ≠ '\n') :
    ∀ j, j ≤ 2 → containsSub (str "\n\n\n") (List.replicate j '\n' ++ Z) = false := by
  have h1 : containsSub (str "\n\n\n") ('\n' :: Z) = false := by
    have hp1 : ¬ (str "\n\n\n").isPrefixOf ('\n' :: Z) = true := by
      intro h
      rcases isPre_cons_elim h with h0 | ⟨p', hpe, hpp⟩
      · exact absurd h0 (by decide)
      · have h2 : ('\n' : Char) :: '\n' :: '\n' :: [] = '\n' :: p' := by rw [← hpe]; rfl
        injection h2 with _ h3
        subst h3
        exact isPre_nl_head_elim (p := ['\n', '\n']) (by simp) rfl hhead hpp
    unfold containsSub
    rw [findSub_cons_neg hp1]
    simpa [containsSub] using hZ
  have h2c : containsSub (str "\n\n\n") ('\n' :: '\n' :: Z) = false := by
    have hp2 : ¬ (str "\n\n\n").isPrefixOf ('\n' :: '\n' :: Z) = true := by
      intro h
      rcases isPre_cons_elim h with h0 | ⟨p', hpe, hpp⟩
      · exact absurd h0 (by decide)
      · have h2 : ('\n' : Char) :: '\n' :: '\n' :: [] = '\n' :: p' := by rw [← hpe]; rfl
        injection h2 with _ h3
        subst h3
        rcases isPre_cons_elim hpp with h0' | ⟨p'', hpe', hpp'⟩
        · simp at h0'
        · have h4 : ('\n' : Char) :: '\n' :: [] = '\n' :: p'' := by rw [← hpe']
          injection h4 with _ h5
          subst h5
          exact isPre_nl_head_elim (p := ['\n']) (by simp) rfl hhead hpp'
    unfold containsSub
    rw [findSub_cons_neg hp2]
    simpa [containsSub] using h1
  intro j hj
  interval_cases j
  · simpa using hZ
  · simpa using h1
  · simpa [List.replicate_succ] using h2c

/-- The output of `collapseNL` never contains three consecutive newlines. -/
theorem nl3_not_in_collapse :
    ∀ (n : Nat) (s : List Char), s.length ≤ n →
      containsSub (str "\n\n\n") (collapseNL s) = false := by
  intro n
  induction n with
  | zero =>
    intro s hs
    have hnil : s = [] := by cases s <;> simp_all
    subst hnil
    rw [collapseNL_nil]
    decide
  | succ m ih =>
    intro s hs
    cases s with
    | nil => rw [collapseNL_nil]; decide
    | cons c rest =>
      have hrest : rest.length ≤ m := by simpa [Nat.succ_le_succ_iff] using hs
      by_cases hc : c = '\n'
      · subst hc
        rw [collapseNL_cons_nl]
        have hZ : containsSub (str "\n\n\n") (collapseNL (rest.drop (nlRun rest))) = false := by
          apply ih
          simp only [List.length_drop]
          omega
        have hhead : ∀ d, (collapseNL (rest.drop (nlRun rest))).head? = some d → d ≠ '\n' := by
          intro d hd
          rw [collapseNL_head?] at hd
          exact nlRun_drop_head rest d hd
        by_cases h3 : 3 ≤ nlRun rest + 1
        · rw [if_pos h3, show str "\n\n" = List.replicate 2 '\n' from rfl]
          exact nl3_not_in_pad hZ hhead 2 (by omega)
        · rw [if_neg h3]
          exact nl3_not_in_pad hZ hhead _ (by omega)
      · rw [collapseNL_cons_neg hc]
        have hZ := ih rest hrest
        have hp : ¬ (str "\n\n\n").isPrefixOf (c :: collapseNL rest) = true := by
          intro h
          rcases isPre_cons_elim h with h0 | ⟨p', hpe, _⟩
          · exact absurd h0 (by decide)
          · have h2 : ('\n' : Char) :: '\n' :: '\n' :: [] = c :: p' := by rw [← hpe]; rfl
            injection h2 with h3 _
            exact hc h3.symm
        unfold containsSub
        rw [findSub_cons_neg hp]
        simpa [containsSub] using hZ

/-- On a string with no three consecutive newlines, `collapseNL` is the
identity. -/
theorem collapse_eq_self :
    ∀ (n : Nat) (s : List Char), s.length ≤ n →
      containsSub (str "\n\n\n") s = false → collapseNL s = s := by
  intro n
  induction n with
  | zero =>
    intro s hs _
    have hnil : s = [] := by cases s <;> simp_all
    subst hnil
    exact collapseNL_nil
  | succ m ih =>
    intro s hs h
    cases s with
    | nil => exact collapseNL_nil
    | cons c rest =>
      have hrest : rest.length ≤ m := by simpa [Nat.succ_le_succ_iff] using hs
      by_cases hc : c = '\n'
      · subst hc
        have h2 : ¬ 2 ≤ nlRun rest := by
          intro h2
          rcases nlRun_ge_two h2 with ⟨z', rfl⟩
          have hpre : (str "\n\n\n").isPrefixOf ('\n' :: '\n' :: '\n' :: z') = true := by
            rw [show str "\n\n\n" = ['\n', '\n', '\n'] from rfl]
            simp [List.isPrefixOf]
          rw [contains_of_isPre hpre] at h
          simp at h
        rw [collapseNL_cons_nl, if_neg (by omega)]
        have hdropZ : containsSub (str "\n\n\n") (rest.drop (nlRun rest)) = false :=
          contains_false_drop _ (contains_false_of_cons h)
        rw [ih _ (by simp only [List.length_drop]; omega) hdropZ,
          List.replicate_succ, List.cons_append, nlRun_split]
      · rw [collapseNL_cons_neg hc, ih rest hrest (contains_false_of_cons h)]

/-- Stripping cannot create occurrences (contrapositive form). -/
theorem contains_false_pyStrip {pat s : List Char}
    (h : containsSub pat s = false) : containsSub pat (pyStrip s) = false := by
  cases hc : containsSub pat (pyStrip s) with
  | false => rfl
  | true => rw [contains_pyStrip hc] at h; simp at h

/-- The head surviving `dropWhile` fails the predicate. -/
theorem dropWhile_head_not {p : Char → Bool} {l : List Char} {d : Char}
    (hd : (l.dropWhile p).head? = some d) : p d = false := by
  have h := List.head?_dropWhile_not p l
  rw [hd] at h
  exact h

/-- `dropWhile` is the identity when the head already fails the predicate. -/
theorem dropWhile_eq_self_of_head {p : Char → Bool} {l : List Char}
    (h : ∀ d, l.head? = some d → p d = false) : l.dropWhile p = l := by
  cases l with
  | nil => rfl
  | cons a l =>
    have ha := h a rfl
    simp [List.dropWhile_cons, ha]

/-- Python `strip` is idempotent. -/
theorem pyStrip_idem (s : List Char) : pyStrip (pyStrip s) = pyStrip s := by
  set A := s.dropWhile isPySpace with hAdef
  set z := A.reverse.dropWhile isPySpace with hzdef
  show pyStrip z.reverse = z.reverse
  have hzsuffix : z <:+ A.reverse := by rw [hzdef]; exact List.dropWhile_suffix _
  have hhead : ∀ d, z.reverse.head? = some d → isPySpace d = false := by
    intro d hd
    rw [List.head?_reverse] at hd
    rcases hzsuffix with ⟨u, hu⟩
    have hAr : (A.reverse).getLast? = some d := by
      rw [← hu, List.getLast?_append, hd]
      rfl
    rw [List.getLast?_reverse] at hAr
    exact dropWhile_head_not (hAdef ▸ hAr)
  unfold pyStrip
  rw [dropWhile_eq_self_of_head hhead, List.reverse_reverse]
  congr 1
  apply dropWhile_eq_self_of_head
  intro d hd
  rw [hzdef] at hd
  exact dropWhile_head_not hd

/-! ### Facts about tag delimiters -/

/-- A tag header is never empty. -/
theorem tag_header_ne_nil (t : Tag) : t.header ≠ [] := by simp [Tag.header]

/-- A tag footer is never empty. -/
theorem tag_footer_ne_nil (t : Tag) : t.footer ≠ [] := by simp [Tag.footer]

/-- A valid tag name contains no newline. -/
theorem tag_name_no_nl {t : Tag} (h : validTagName t = true) : '\n' ∉ t.tag_name := by
  intro hm
  unfold validTagName at h
  have hall : t.tag_name.all isNameChar = true := by
    cases hx : t.tag_name.all isNameChar with
    | true => rfl
    | false => rw [hx] at h; simp at h
  have hnc := List.all_eq_true.mp hall '\n' hm
  exact absurd hnc (by decide)

/-- The header of a tag with a newline-free name is newline-free. -/
theorem tag_header_no_nl {t : Tag} (h : '\n' ∉ t.tag_name) : '\n' ∉ t.header := by
  intro hm
  rcases List.mem_append.mp hm with h1 | h2
  · rcases List.mem_cons.mp h1 with he | hn
    · exact absurd he (by decide)
    · exact h hn
  · exact absurd h2 (by decide)

/-- The footer of a tag with a newline-free name is newline-free. -/
theorem tag_footer_no_nl {t : Tag} (h : '\n' ∉ t.tag_name) : '\n' ∉ t.footer := by
  intro hm
  rcases List.mem_append.mp hm with h1 | h2
  · rcases List.mem_cons.mp h1 with he | hn
    · exact absurd he (by decide)
    · rcases List.mem_cons.mp hn with he' | hn'
      · exact absurd he' (by decide)
      · exact h hn'
  · exact absurd h2 (by decide)

/-- Removal is the identity on a string that lacks one of the delimiters. -/
theorem subRemove_eq_self_of_lacksBoth {P : CleanupPattern} {s : List Char}
    (h : lacksBoth P s = true) : subRemove P.header P.footer s = s := by
  apply subRemove_eq_self
  unfold lacksBoth at h
  cases hh : containsSub P.header s with
  | false => exact Or.inl rfl
  | true =>
    right
    cases hf : containsSub P.footer s with
    | false => rfl
    | true => rw [hh, hf] at h; simp at h

/-- Cleanup of a string whose pure removal result lacks a delimiter yields a
string that lacks a delimiter. -/
theorem lacksBoth_clean {P : CleanupPattern} {s : List Char}
    (hh : P.header ≠ []) (hnh : '\n' ∉ P.header)
    (hf : P.footer ≠ []) (hnf : '\n' ∉ P.footer)
    (h : lacksBoth P (subRemove P.header P.footer s) = true) :
    lacksBoth P (clean_string s P) = true := by
  unfold lacksBoth at h ⊢
  cases hch : containsSub P.header (clean_string s P) with
  | false => simp [hch]
  | true =>
    cases hcf : containsSub P.footer (clean_string s P) with
    | false => simp [hcf]
    | true =>
      have h1 := contains_clean_string hh hnh hch
      have h2 := contains_clean_string hf hnf hcf
      rw [h1, h2] at h
      simp at h

/-! ### Structure of the history pass -/

/-- Cons step of the history pass when the entry is kept. -/
theorem cleanContexts_cons_some {P : CleanupPattern} {m m' : Message} {k : Nat}
    (h : cleanMessage P m = (some m', k)) (ms : List Message) :
    (cleanContexts P (m :: ms)).1 = m' :: (cleanContexts P ms).1 ∧
    (cleanContexts P (m :: ms)).2 = k + (cleanContexts P ms).2 := by
  constructor <;> simp [cleanContexts, h]

/-- Cons step of the history pass when the entry is dropped. -/
theorem cleanContexts_cons_none {P : CleanupPattern} {m : Message} {k : Nat}
    (h : cleanMessage P m = (none, k)) (ms : List Message) :
    (cleanContexts P (m :: ms)).1 = (cleanContexts P ms).1 ∧
    (cleanContexts P (m :: ms)).2 = k + (cleanContexts P ms).2 := by
  constructor <;> simp [cleanContexts, h]

/-- The history pass distributes over concatenation. -/
theorem cleanContexts_append (P : CleanupPattern) (xs ys : List Message) :
    (cleanContexts P (xs ++ ys)).1 = (cleanContexts P xs).1 ++ (cleanContexts P ys).1 := by
  induction xs with
  | nil => simp [cleanContexts]
  | cons m ms ih =>
    rw [List.cons_append]
    rcases hm : cleanMessage P m with ⟨o, k⟩
    cases o with
    | some m' =>
      rw [(cleanContexts_cons_some hm (ms ++ ys)).1, (cleanContexts_cons_some hm ms).1,
        ih, List.cons_append]
    | none =>
      rw [(cleanContexts_cons_none hm (ms ++ ys)).1, (cleanContexts_cons_none hm ms).1, ih]

/-! ### Part-level accounting -/

/-- A vanished part is dropped, flagged, and not counted. -/
theorem cleanPart_of_vanishes {P : CleanupPattern} {p : Part}
    (h : partVanishes P p = true) : cleanPart P p = (none, true, 0) := by
  cases p with
  | otherPart d => simp [partVanishes] at h
  | textPart e v =>
    simp only [partVanishes, Bool.and_eq_true] at h
    simp [cleanPart, h.1.1, h.1.2, h.2]

/-- The per-part removal counter increments exactly on replaced parts. -/
theorem cleanPart_count (P : CleanupPattern) (p : Part) :
    (cleanPart P p).2.2 = if partReplaced P p = true then 1 else 0 := by
  cases p with
  | otherPart d => simp [cleanPart, partReplaced]
  | textPart e v =>
    cases hg : (containsSub P.header v && containsSub P.footer v) with
    | false => simp [cleanPart, partReplaced, hg]
    | true =>
      cases he : (clean_string v P).isEmpty with
      | true => simp [cleanPart, partReplaced, hg, he]
      | false =>
        by_cases heq : clean_string v P = v
        · rw [heq] at he
          have hv : ¬ v = [] := by simpa using he
          simp [cleanPart, partReplaced, hg, heq, hv]
        · simp [cleanPart, partReplaced, hg, he, heq]

/-- A part is dropped exactly when it vanishes. -/
theorem cleanPart_none_iff (P : CleanupPattern) (p : Part) :
    (cleanPart P p).1 = none ↔ partVanishes P p = true := by
  cases p with
  | otherPart d => simp [cleanPart, partVanishes]
  | textPart e v =>
    cases hg : (containsSub P.header v && containsSub P.footer v) with
    | false => simp [cleanPart, partVanishes, hg]
    | true =>
      cases he : (clean_string v P).isEmpty with
      | true => simp [cleanPart, partVanishes, hg, he]
      | false =>
        by_cases heq : clean_string v P = v
        · rw [heq] at he
          have hv : ¬ v = [] := by simpa using he
          simp [cleanPart, partVanishes, hg, heq, hv]
        · simp [cleanPart, partVanishes, hg, he, heq]

/-- The parts loop counts exactly the replaced parts. -/
theorem cleanParts_count (P : CleanupPattern) :
    ∀ ps : List Part, (cleanParts P ps).2.2 = ps.countP (partReplaced P) := by
  intro ps
  induction ps with
  | nil => rfl
  | cons p ps ih =>
    have hstep : (cleanParts P (p :: ps)).2.2 = (cleanPart P p).2.2 + (cleanParts P ps).2.2 := by
      simp [cleanParts]
    rw [hstep, ih, cleanPart_count, List.countP_cons]
    by_cases h : partReplaced P p = true <;> simp [h] <;> omega

/-- The parts loop empties the list exactly when every part vanishes. -/
theorem cleanParts_empty_iff (P : CleanupPattern) :
    ∀ ps : List Part, ((cleanParts P ps).1 = [] ↔ ps.all (partVanishes P) = true) := by
  intro ps
  induction ps with
  | nil => simp [cleanParts]
  | cons p ps ih =>
    cases hp : (cleanPart P p).1 with
    | some q =>
      have hstep : (cleanParts P (p :: ps)).1 = q :: (cleanParts P ps).1 := by
        simp [cleanParts, hp]
      rw [hstep]
      simp only [List.all_cons, Bool.and_eq_true]
      constructor
      · intro h; exact absurd h (by simp)
      · rintro ⟨h1, _⟩
        have h2 := (cleanPart_none_iff P p).mpr h1
        rw [hp] at h2
        exact absurd h2 (by simp)
    | none =>
      have hstep : (cleanParts P (p :: ps)).1 = (cleanParts P ps).1 := by
        simp [cleanParts, hp]
      have hv := (cleanPart_none_iff P p).mp hp
      rw [hstep]
      simp only [List.all_cons, hv, Bool.true_and]
      exact ih

/-- A vanished part is never counted as replaced. -/
theorem partReplaced_false_of_vanishes {P : CleanupPattern} {p : Part}
    (h : partVanishes P p = true) : partReplaced P p = false := by
  cases p with
  | otherPart d => rfl
  | textPart e v =>
    simp only [partVanishes, Bool.and_eq_true] at h
    simp [partReplaced, h.1.1, h.1.2, h.2]

/-- If every part vanishes, the whole loop returns no parts and count 0. -/
theorem cleanParts_all_vanish {P : CleanupPattern} {ps : List Part}
    (h : ps.all (partVanishes P) = true) :
    (cleanParts P ps).1 = [] ∧ (cleanParts P ps).2.2 = 0 := by
  refine ⟨(cleanParts_empty_iff P ps).mpr h, ?_⟩
  rw [cleanParts_count]
  induction ps with
  | nil => rfl
  | cons p ps ih =>
    simp only [List.all_cons, Bool.and_eq_true] at h
    rw [List.countP_cons]
    simp [partReplaced_false_of_vanishes h.1, ih h.2]

/-- A fully consumed entry is dropped and counts exactly 1. -/
theorem cleanMessage_fullyConsumed {P : CleanupPattern} {m : Message}
    (h : fullyConsumed P m = true) : cleanMessage P m = (none, 1) := by
  cases m with
  | plain v =>
    simp only [fullyConsumed, Bool.and_eq_true] at h
    simp [cleanMessage, h.1.1, h.1.2, h.2]
  | other d => simp [fullyConsumed] at h
  | dict extra content =>
    cases content with
    | strC v =>
      simp only [fullyConsumed, Bool.and_eq_true] at h
      simp [cleanMessage, h.1.1, h.1.2, h.2]
    | listC ps =>
      have hall := cleanParts_all_vanish (by simpa [fullyConsumed] using h)
      simp [cleanMessage, hall.1, hall.2]
    | otherC d => simp [fullyConsumed] at h

/-! ### Field cleanup, registry and injection helpers -/

/-- A string failing the cleanup guard lacks one of the delimiters. -/
theorem lacksBoth_of_not_guard {P : CleanupPattern} {v : List Char} (hh : P.header ≠ [])
    (hg : ¬ (!v.isEmpty && containsSub P.header v && containsSub P.footer v) = true) :
    lacksBoth P v = true := by
  unfold lacksBoth
  cases hch : containsSub P.header v with
  | false => simp [hch]
  | true =>
    cases hcf : containsSub P.footer v with
    | false => simp [hcf]
    | true =>
      exfalso
      apply hg
      have hv : v ≠ [] := by
        intro h0
        subst h0
        have hemp : containsSub P.header ([] : List Char) = false := by
          simp [containsSub, findSub, isPre_nil_false hh]
        rw [hemp] at hch
        simp at hch
      simp [hch, hcf, hv]

/-- A string that lacks one of the delimiters also fails the simple guard. -/
theorem lacksBoth_of_not_pair {P : CleanupPattern} {v : List Char}
    (hg : ¬ (containsSub P.header v && containsSub P.footer v) = true) :
    lacksBoth P v = true := by
  unfold lacksBoth
  cases h : (containsSub P.header v && containsSub P.footer v) with
  | false => simp
  | true => exact absurd h hg

/-- A field whose value lacks a delimiter is left unchanged with count 0. -/
theorem cleanField_unchanged {P : CleanupPattern} {fld : Option (List Char)}
    (h : lacksBoth P (orEmpty fld) = true) : cleanField P fld = (fld, 0) := by
  cases fld with
  | none => rfl
  | some v =>
    have hg : ¬ (!v.isEmpty && containsSub P.header v && containsSub P.footer v) = true := by
      intro hg
      have hcf : containsSub P.footer v = true := by
        cases hx : containsSub P.footer v with
        | true => rfl
        | false => rw [hx] at hg; simp at hg
      have hch : containsSub P.header v = true := by
        cases hx : containsSub P.header v with
        | true => rfl
        | false => rw [hx] at hg; simp at hg
      rw [show orEmpty (some v) = v from rfl] at h
      unfold lacksBoth at h
      rw [hch, hcf] at h
      simp at h
    simp [cleanField, hg]

/-- An unrecognised position string falls back to `user_message_after`. -/
theorem parse_position_unrecognized {p : List Char} (h : recognizedPosition p = false) :
    parse_position p = Position.user_message_after := by
  unfold recognizedPosition at h
  unfold parse_position
  simp only [Bool.or_eq_false_iff, decide_eq_false_iff_not] at h
  simp [h.1.1, h.1.2, h.2]

/-- The bucket of a single tag. -/
theorem bucket_single (t : Tag) (p : Position) :
    bucket [t] p = if t.position = p then [format_tag t] else [] := by
  by_cases h : t.position = p <;> simp [bucket, h]

/-- Every string contains itself. -/
theorem contains_self (pat : List Char) : containsSub pat pat = true := by
  apply contains_of_isPre
  simp

/-! ### Surface-wise cleanup invariants -/

/-- `residualFree` unfolded. -/
theorem residualFree_iff {P : CleanupPattern} {s : List Char} :
    residualFree P s = true ↔ lacksBoth P (subRemove P.header P.footer s) = true :=
  Iff.rfl

/-- Kept parts of the parts loop lack both delimiters when every input text
part is residual-free. -/
theorem cleanParts_lacksBoth {P : CleanupPattern}
    (hh : P.header ≠ []) (hnh : '\n' ∉ P.header)
    (hf : P.footer ≠ []) (hnf : '\n' ∉ P.footer) :
    ∀ (ps : List Part), (∀ s ∈ ps.filterMap partText?, residualFree P s = true) →
      ∀ s ∈ (cleanParts P ps).1.filterMap partText?, lacksBoth P s = true := by
  intro ps
  induction ps with
  | nil =>
    intro _ s hs
    simp [cleanParts] at hs
  | cons p ps ih =>
    intro hres s hs
    cases p with
    | otherPart d =>
      have hstep : (cleanParts P (Part.otherPart d :: ps)).1
          = Part.otherPart d :: (cleanParts P ps).1 := by simp [cleanParts, cleanPart]
      rw [hstep, List.filterMap_cons] at hs
      simp only [partText?] at hs
      exact ih (by simpa [List.filterMap_cons, partText?] using hres) s hs
    | textPart e v =>
      have hresv : residualFree P v = true := hres v (by simp [List.filterMap_cons, partText?])
      have hrest : ∀ s ∈ ps.filterMap partText?, residualFree P s = true := by
        intro s' hs'
        exact hres s' (by simp [List.filterMap_cons, partText?, hs'])
      cases hg : (containsSub P.header v && containsSub P.footer v) with
      | false =>
        have hstep : (cleanParts P (Part.textPart e v :: ps)).1
            = Part.textPart e v :: (cleanParts P ps).1 := by simp [cleanParts, cleanPart, hg]
        rw [hstep, List.filterMap_cons] at hs
        simp only [partText?] at hs
        rcases List.mem_cons.mp hs with rfl | hs2
        · exact lacksBoth_of_not_pair (by simp [hg])
        · exact ih hrest s hs2
      | true =>
        cases he : (clean_string v P).isEmpty with
        | true =>
          have hstep : (cleanParts P (Part.textPart e v :: ps)).1 = (cleanParts P ps).1 := by
            simp [cleanParts, cleanPart, hg, he]
          rw [hstep] at hs
          exact ih hrest s hs
        | false =>
          by_cases heq : clean_string v P = v
          · have hstep : (cleanParts P (Part.textPart e v :: ps)).1
                = Part.textPart e v :: (cleanParts P ps).1 := by
              rw [heq] at he
              have hv : ¬ v = [] := by simpa using he
              simp [cleanParts, cleanPart, hg, heq, hv]
            rw [hstep, List.filterMap_cons] at hs
            simp only [partText?] at hs
            rcases List.mem_cons.mp hs with rfl | hs2
            · have h2 := lacksBoth_clean hh hnh hf hnf (residualFree_iff.mp hresv)
              rwa [heq] at h2
            · exact ih hrest s hs2
          · have hstep : (cleanParts P (Part.textPart e v :: ps)).1
                = Part.textPart e (clean_string v P) :: (cleanParts P ps).1 := by
              simp [cleanParts, cleanPart, hg, he, heq]
            rw [hstep, List.filterMap_cons] at hs
            simp only [partText?] at hs
            rcases List.mem_cons.mp hs with rfl | hs2
            · exact lacksBoth_clean hh hnh hf hnf (residualFree_iff.mp hresv)
            · exact ih hrest s hs2

/-- When `has_changes` stays false, the parts loop keeps the list as is. -/
theorem cleanParts_unchanged {P : CleanupPattern} :
    ∀ {ps : List Part}, (cleanParts P ps).2.1 = false → (cleanParts P ps).1 = ps := by
  intro ps
  induction ps with
  | nil => intro _; rfl
  | cons p ps ih =>
    intro h
    have hsplit : (cleanParts P (p :: ps)).2.1
        = ((cleanPart P p).2.1 || (cleanParts P ps).2.1) := by
      simp [cleanParts]
    rw [hsplit] at h
    have hflag1 : (cleanPart P p).2.1 = false := by
      cases hx : (cleanPart P p).2.1 with
      | false => rfl
      | true => rw [hx] at h; simp at h
    have hflag2 : (cleanParts P ps).2.1 = false := by
      cases hx : (cleanParts P ps).2.1 with
      | false => rfl
      | true => rw [hx] at h; simp at h
    have hkeep : (cleanPart P p).1 = some p := by
      cases p with
      | otherPart d => simp [cleanPart]
      | textPart e v =>
        cases hg : (containsSub P.header v && containsSub P.footer v) with
        | false => simp [cleanPart, hg]
        | true =>
          cases he : (clean_string v P).isEmpty with
          | true =>
            exfalso
            have hx : (cleanPart P (Part.textPart e v)).2.1 = true := by
              simp [cleanPart, hg, he]
            rw [hx] at hflag1
            simp at hflag1
          | false =>
            by_cases heq : clean_string v P = v
            · rw [heq] at he
              have hv : ¬ v = [] := by simpa using he
              simp [cleanPart, hg, heq, hv]
            · exfalso
              have hx : (cleanPart P (Part.textPart e v)).2.1 = true := by
                simp [cleanPart, hg, he, heq]
              rw [hx] at hflag1
              simp at hflag1
    have hstep : (cleanParts P (p :: ps)).1 = p :: (cleanParts P ps).1 := by
      simp [cleanParts, hkeep]
    rw [hstep, ih hflag2]

/-- Kept history entries have delimiter-free surfaces when every input
surface is residual-free. -/
theorem cleanMessage_lacksBoth {P : CleanupPattern}
    (hh : P.header ≠ []) (hnh : '\n' ∉ P.header)
    (hf : P.footer ≠ []) (hnf : '\n' ∉ P.footer) :
    ∀ (m : Message), (∀ s ∈ msgSurfaces m, residualFree P s = true) →
      ∀ {m' : Message}, (cleanMessage P m).1 = some m' →
        ∀ s ∈ msgSurfaces m', lacksBoth P s = true := by
  intro m hres m' hm s hs
  cases m with
  | other d =>
    have hm2 : m' = Message.other d := by
      rw [show (cleanMessage P (Message.other d)).1 = some (Message.other d) from rfl] at hm
      exact (Option.some_inj.mp hm).symm
    subst hm2
    simp [msgSurfaces] at hs
  | plain v =>
    have hresv : residualFree P v = true := hres v (by simp [msgSurfaces])
    cases hg : (containsSub P.header v && containsSub P.footer v) with
    | false =>
      have hx : (cleanMessage P (Message.plain v)).1 = some (Message.plain v) := by
        simp [cleanMessage, hg]
      rw [hx] at hm
      have hm2 : m' = Message.plain v := (Option.some_inj.mp hm).symm
      subst hm2
      simp only [msgSurfaces, List.mem_singleton] at hs
      subst hs
      exact lacksBoth_of_not_pair (by simp [hg])
    | true =>
      cases he : (clean_string v P).isEmpty with
      | true =>
        have hx : (cleanMessage P (Message.plain v)).1 = none := by simp [cleanMessage, hg, he]
        rw [hx] at hm
        exact absurd hm (by simp)
      | false =>
        by_cases heq : clean_string v P = v
        · have hx : (cleanMessage P (Message.plain v)).1 = some (Message.plain v) := by
            rw [heq] at he
            have hv : ¬ v = [] := by simpa using he
            simp [cleanMessage, hg, heq, hv]
          rw [hx] at hm
          have hm2 : m' = Message.plain v := (Option.some_inj.mp hm).symm
          subst hm2
          simp only [msgSurfaces, List.mem_singleton] at hs
          subst hs
          have h2 := lacksBoth_clean hh hnh hf hnf (residualFree_iff.mp hresv)
          rwa [heq] at h2
        · have hx : (cleanMessage P (Message.plain v)).1
              = some (Message.plain (clean_string v P)) := by
            simp [cleanMessage, hg, he, heq]
          rw [hx] at hm
          have hm2 : m' = Message.plain (clean_string v P) := (Option.some_inj.mp hm).symm
          subst hm2
          simp only [msgSurfaces, List.mem_singleton] at hs
          subst hs
          exact lacksBoth_clean hh hnh hf hnf (residualFree_iff.mp hresv)
  | dict extra content =>
    cases content with
    | otherC d =>
      rw [show (cleanMessage P (Message.dict extra (MsgContent.otherC d))).1 = none from rfl] at hm
      exact absurd hm (by simp)
    | strC v =>
      have hresv : residualFree P v = true := hres v (by simp [msgSurfaces])
      cases hg : (containsSub P.header v && containsSub P.footer v) with
      | false =>
        have hx : (cleanMessage P (Message.dict extra (MsgContent.strC v))).1
            = some (Message.dict extra (MsgContent.strC v)) := by
          simp [cleanMessage, hg]
        rw [hx] at hm
        have hm2 : m' = Message.dict extra (MsgContent.strC v) := (Option.some_inj.mp hm).symm
        subst hm2
        simp only [msgSurfaces, List.mem_singleton] at hs
        subst hs
        exact lacksBoth_of_not_pair (by simp [hg])
      | true =>
        cases he : (clean_string v P).isEmpty with
        | true =>
          have hx : (cleanMessage P (Message.dict extra (MsgContent.strC v))).1 = none := by
            simp [cleanMessage, hg, he]
          rw [hx] at hm
          exact absurd hm (by simp)
        | false =>
          by_cases heq : clean_string v P = v
          · have hx : (cleanMessage P (Message.dict extra (MsgContent.strC v))).1
                = some (Message.dict extra (MsgContent.strC v)) := by
              rw [heq] at he
              have hv : ¬ v = [] := by simpa using he
              simp [cleanMessage, hg, heq, hv]
            rw [hx] at hm
            have hm2 : m' = Message.dict extra (MsgContent.strC v) := (Option.some_inj.mp hm).symm
            subst hm2
            simp only [msgSurfaces, List.mem_singleton] at hs
            subst hs
            have h2 := lacksBoth_clean hh hnh hf hnf (residualFree_iff.mp hresv)
            rwa [heq] at h2
          · have hx : (cleanMessage P (Message.dict extra (MsgContent.strC v))).1
                = some (Message.dict extra (MsgContent.strC (clean_string v P))) := by
              simp [cleanMessage, hg, he, heq]
            rw [hx] at hm
            have hm2 : m' = Message.dict extra (MsgContent.strC (clean_string v P)) :=
              (Option.some_inj.mp hm).symm
            subst hm2
            simp only [msgSurfaces, List.mem_singleton] at hs
            subst hs
            exact lacksBoth_clean hh hnh hf hnf (residualFree_iff.mp hresv)
    | listC ps =>
      have hresps : ∀ s ∈ ps.filterMap partText?, residualFree P s = true := by
        intro s' hs'
        exact hres s' (by simpa [msgSurfaces] using hs')
      cases hemp : (cleanParts P ps).1.isEmpty with
      | true =>
        have hx : (cleanMessage P (Message.dict extra (MsgContent.listC ps))).1 = none := by
          simp [cleanMessage, hemp]
        rw [hx] at hm
        exact absurd hm (by simp)
      | false =>
        cases hflag : (cleanParts P ps).2.1 with
        | true =>
          have hx : (cleanMessage P (Message.dict extra (MsgContent.listC ps))).1
              = some (Message.dict extra (MsgContent.listC (cleanParts P ps).1)) := by
            simp [cleanMessage, hemp, hflag]
          rw [hx] at hm
          have hm2 : m' = Message.dict extra (MsgContent.listC (cleanParts P ps).1) :=
            (Option.some_inj.mp hm).symm
          subst hm2
          simp only [msgSurfaces] at hs
          exact cleanParts_lacksBoth hh hnh hf hnf ps hresps s hs
        | false =>
          have hx : (cleanMessage P (Message.dict extra (MsgContent.listC ps))).1
              = some (Message.dict extra (MsgContent.listC ps)) := by
            simp [cleanMessage, hemp, hflag]
          rw [hx] at hm
          have hm2 : m' = Message.dict extra (MsgContent.listC ps) := (Option.some_inj.mp hm).symm
          subst hm2
          simp only [msgSurfaces] at hs
          rw [← cleanParts_unchanged hflag] at hs
          exact cleanParts_lacksBoth hh hnh hf hnf ps hresps s hs

/-- First component of the history pass on a cons cell. -/
theorem cleanContexts_fst_cons (P : CleanupPattern) (m : Message) (ms : List Message) :
    (cleanContexts P (m :: ms)).1 = (match (cleanMessage P m).1 with
      | some m' => m' :: (cleanContexts P ms).1
      | none => (cleanContexts P ms).1) := by
  simp [cleanContexts]

/-- Surfaces of the cleaned history lack both delimiters when every input
surface is residual-free. -/
theorem cleanContexts_lacksBoth {P : CleanupPattern}
    (hh : P.header ≠ []) (hnh : '\n' ∉ P.header)
    (hf : P.footer ≠ []) (hnf : '\n' ∉ P.footer) :
    ∀ (ms : List Message), (∀ s ∈ (ms.map msgSurfaces).flatten, residualFree P s = true) →
      ∀ s ∈ ((cleanContexts P ms).1.map msgSurfaces).flatten, lacksBoth P s = true := by
  intro ms
  induction ms with
  | nil =>
    intro _ s hs
    simp [cleanContexts] at hs
  | cons m ms ih =>
    intro hres s hs
    have hresm : ∀ s ∈ msgSurfaces m, residualFree P s = true := by
      intro s' hs'
      exact hres s' (by simp [hs'])
    have hrest : ∀ s ∈ (ms.map msgSurfaces).flatten, residualFree P s = true := by
      intro s' hs'
      apply hres s'
      simp only [List.map_cons, List.flatten_cons, List.mem_append]
      exact Or.inr hs'
    rw [cleanContexts_fst_cons] at hs
    rcases hm : (cleanMessage P m).1 with _ | m'
    · rw [hm] at hs
      exact ih hrest s hs
    · rw [hm] at hs
      simp only [List.map_cons, List.flatten_cons, List.mem_append] at hs
      rcases hs with hs | hs
      · exact cleanMessage_lacksBoth hh hnh hf hnf m hresm hm s hs
      · exact ih hrest s hs

/-- Kept surfaces of a cleaned field lack both delimiters when the input
surface is residual-free. -/
theorem cleanField_lacksBoth {P : CleanupPattern}
    (hh : P.header ≠ []) (hnh : '\n' ∉ P.header) (hf : P.footer ≠ []) (hnf : '\n' ∉ P.footer)
    {fld : Option (List Char)} (hres : ∀ s ∈ optSurface fld, residualFree P s = true) :
    ∀ s ∈ optSurface (cleanField P fld).1, lacksBoth P s = true := by
  cases fld with
  | none => intro s hs; simp [cleanField, optSurface] at hs
  | some v =>
    intro s hs
    have hresv : residualFree P v = true := hres v (by simp [optSurface])
    by_cases hg : (!v.isEmpty && containsSub P.header v && containsSub P.footer v) = true
    · have hx : (cleanField P (some v)).1 = some (clean_string v P) := by simp [cleanField, hg]
      rw [hx] at hs
      simp only [optSurface, List.mem_singleton] at hs
      subst hs
      exact lacksBoth_clean hh hnh hf hnf (residualFree_iff.mp hresv)
    · have hx : (cleanField P (some v)).1 = some v := by simp [cleanField, hg]
      rw [hx] at hs
      simp only [optSurface, List.mem_singleton] at hs
      subst hs
      exact lacksBoth_of_not_guard hh hg

/-! ### Removal of a single well-formed block -/

/-- A match starting at position 0 is removed in one step. -/
theorem subRemove_match_at_zero {H F s : List Char} {i : Nat}
    (hH : H ≠ []) (hpre : H.isPrefixOf s = true)
    (hfind : findSub F (s.drop H.length) = some i) :
    subRemove H F s = subRemove H F ((s.drop H.length).drop (i + F.length)) := by
  cases s with
  | nil => exact absurd (eq_nil_of_isPre_nil hpre) hH
  | cons c rest =>
    apply subRemove_cons_match _ hfind
    simp [hpre, hH]

/-- The scan steps over a leading newline (the header cannot match there). -/
theorem subRemove_nl_step {H F z : List Char} (hH : H ≠ []) (hnlH : '\n' ∉ H) :
    subRemove H F ('\n' :: z) = '\n' :: subRemove H F z := by
  apply subRemove_cons_neg
  intro hg
  have hpre : H.isPrefixOf ('\n' :: z) = true := by
    cases hx : H.isPrefixOf ('\n' :: z) with
    | true => rfl
    | false => rw [hx] at hg; simp at hg
  exact not_isPre_nl hH hnlH hpre

/-- Removing the single block `H ++ "\n" ++ c ++ "\n" ++ F` followed by an
all-newline tail leaves exactly the tail, provided the content does not
contain the footer. -/
theorem subRemove_single_block {H F c z : List Char}
    (hH : H ≠ []) (hnlH : '\n' ∉ H) (hF : F ≠ []) (hnlF : '\n' ∉ F)
    (hc : containsSub F c = false) (hz : ∀ d ∈ z, d = '\n') :
    subRemove H F (H ++ ('\n' :: (c ++ ('\n' :: (F ++ z))))) = z := by
  have hpre : H.isPrefixOf (H ++ ('\n' :: (c ++ ('\n' :: (F ++ z))))) = true := by simp
  have hdrop : (H ++ ('\n' :: (c ++ ('\n' :: (F ++ z))))).drop H.length
      = '\n' :: (c ++ ('\n' :: (F ++ z))) := List.drop_left _ _
  have hfind : findSub F ((H ++ ('\n' :: (c ++ ('\n' :: (F ++ z))))).drop H.length)
      = some (c.length + 2) := by
    rw [hdrop, findSub_cons_neg (not_isPre_nl hF hnlF), findSub_after_sep hF hnlF z hc]
    rfl
  rw [subRemove_match_at_zero hH hpre hfind, hdrop]
  have heq : ('\n' :: (c ++ ('\n' :: (F ++ z)))) = (('\n' :: c) ++ ('\n' :: F)) ++ z := by
    simp [List.append_assoc]
  rw [heq, List.drop_left' (by simp; omega)]
  exact subRemove_eq_self (Or.inl (contains_nl_str_false hH hnlH hz))

/-! ### The claims -/

/-- Claim C3: the injection phase composes `userPrompt` exactly as specified:
an optional joined before-user block and a blank line, then the original
prompt (or `""`), then a blank line and an optional joined after-user block,
with same-anchor blocks joined by `"\n\n"` in slot order; in particular tag
`Foo` with content `"Hello\nWorld"`, anchor after-user and prompt `"Hi"`
yields `"Hi\n\n<Foo>\nHello\nWorld\n</Foo>\n"`. -/
theorem claim_C3 :
    (∀ (tags : List Tag) (req : ProviderRequest),
      (inject_tags tags req).prompt
        = specUserPromptComposition (bucket tags Position.user_message_before)
            (bucket tags Position.user_message_after) req.prompt) ∧
    (inject_tags [⟨str "Foo", str "Hello\nWorld", Position.user_message_after⟩]
        ⟨none, some (str "Hi"), []⟩).prompt
      = some (str "Hi\n\n<Foo>\nHello\nWorld\n</Foo>\n") := by
  constructor
  · intro tags req
    by_cases hb : bucket tags Position.user_message_before = [] <;>
      by_cases ha : bucket tags Position.user_message_after = [] <;>
        simp [inject_tags, specUserPromptComposition, hb, ha, orEmpty, List.append_assoc]
  · decide

/-- Claim C4: a history entry whose entire content is consumed by cleanup (a
plain string or string-content dict whose cleaned text is empty, or a
multipart entry all of whose parts are dropped) is removed from history
altogether — its pass result is `(none, 1)` and the filtered history is the
cleanup of the surrounding entries only. -/
theorem claim_C4 :
    ∀ (t : Tag) (sp pp : Option (List Char)) (xs ys : List Message) (m : Message),
      fullyConsumed (build_cleanup_pattern t) m = true →
      cleanMessage (build_cleanup_pattern t) m = (none, 1) ∧
      (remove_tags_from_context ⟨sp, pp, xs ++ m :: ys⟩ t).1.contexts
        = (cleanContexts (build_cleanup_pattern t) xs).1
          ++ (cleanContexts (build_cleanup_pattern t) ys).1 := by
  intro t sp pp xs ys m h
  have h1 := cleanMessage_fullyConsumed h
  refine ⟨h1, ?_⟩
  show (cleanContexts (build_cleanup_pattern t) (xs ++ m :: ys)).1 = _
  rw [cleanContexts_append, cleanContexts_fst_cons, h1]

/-- Witness for C4: a plain-string entry reduced to nothing is dropped. -/
theorem claim_C4_witness :
    cleanMessage (build_cleanup_pattern ⟨str "a", str "x", Position.user_message_after⟩)
        (Message.plain (str "<a>x</a>")) = (none, 1) ∧
    (remove_tags_from_context ⟨none, none, [Message.plain (str "<a>x</a>")]⟩
        ⟨str "a", str "x", Position.user_message_after⟩).1.contexts = [] := by
  have h := claim_C4 ⟨str "a", str "x", Position.user_message_after⟩ none none [] []
    (Message.plain (str "<a>x</a>")) (by decide)
  exact ⟨h.1, h.2⟩

/-- Claim C7 counterexample: in a multipart entry whose first text part is
emptied by cleanup and dropped (and whose second part is kept), the dropped
part contributes nothing: the pass returns count 0, not the 1 the claim
requires. -/
theorem claim_C7_counterexample :
    remove_tags_from_context
        ⟨none, none, [Message.dict 0 (MsgContent.listC
          [Part.textPart 0 (str "<a>x</a>"), Part.textPart 1 (str "keep")])]⟩
        ⟨str "a", str "x", Position.user_message_after⟩
      = (⟨none, none, [Message.dict 0 (MsgContent.listC [Part.textPart 1 (str "keep")])]⟩, 0) := by
  decide

/-- Claim C7 (amended): the count contributed by a multipart entry is the
number of text parts replaced with changed non-empty text, plus one when
every part is dropped (the whole-message drop); an emptied-and-dropped part
by itself contributes 0, unlike a dropped plain-string entry, which counts
1. -/
theorem claim_C7_amended :
    ∀ (P : CleanupPattern) (extra : Nat) (ps : List Part),
      (cleanMessage P (Message.dict extra (MsgContent.listC ps))).2
        = ps.countP (partReplaced P)
          + (if ps.all (partVanishes P) = true then 1 else 0) := by
  intro P extra ps
  cases hemp : (cleanParts P ps).1.isEmpty with
  | true =>
    have he : (cleanParts P ps).1 = [] := by simpa using hemp
    have hall := (cleanParts_empty_iff P ps).mp he
    have hx : (cleanMessage P (Message.dict extra (MsgContent.listC ps))).2
        = (cleanParts P ps).2.2 + 1 := by simp [cleanMessage, hemp]
    rw [hx, cleanParts_count, hall]
    simp
  | false =>
    have he : ¬ (cleanParts P ps).1 = [] := by simpa using hemp
    have hall : ps.all (partVanishes P) = false := by
      cases hx : ps.all (partVanishes P) with
      | false => rfl
      | true => exact absurd ((cleanParts_empty_iff P ps).mpr hx) he
    have hx : (cleanMessage P (Message.dict extra (MsgContent.listC ps))).2
        = (cleanParts P ps).2.2 := by
      cases hflag : (cleanParts P ps).2.1 <;> simp [cleanMessage, hemp, hflag]
    rw [hx, cleanParts_count, hall]
    simp

/-- Claim C8: an enabled slot with an unrecognised `injection_position` is
not skipped: loading it gives exactly the result of loading the same slot
with `"user_message_after"` — the anchor is defaulted and the name/content
validation is unchanged. -/
theorem claim_C8 :
    ∀ (slot : TagSlot), slot.enabled = true →
      recognizedPosition (pyStrip slot.injection_position) = false →
      load_tag slot
        = load_tag { slot with injection_position := str "user_message_after" } := by
  intro slot hen hpos
  have hR : parse_position (pyStrip (str "user_message_after"))
      = Position.user_message_after := by decide
  simp only [load_tag, hen, Bool.not_true, parse_position_unrecognized hpos, hR]

/-- Witness for C8 at a concrete slot. -/
theorem claim_C8_witness :
    load_tag ⟨true, str "Memo", str "hello", str "weird_place"⟩
      = load_tag ⟨true, str "Memo", str "hello", str "user_message_after"⟩ :=
  claim_C8 ⟨true, str "Memo", str "hello", str "weird_place"⟩ rfl (by decide)

/-- Claim C9: cleanup passes unrecognised shapes through unchanged and never
fails — a history entry that is neither a string nor a dict, and a part that
is not a text-kind part with string text, come out identical (with count 0,
flag unset), and such an entry survives `_remove_tags_from_context` in
place.  (The model is total, so no error can be raised.) -/
theorem claim_C9 :
    ∀ (P : CleanupPattern) (idm idp : Nat) (t : Tag) (sp pp : Option (List Char))
      (xs ys : List Message),
      cleanMessage P (Message.other idm) = (some (Message.other idm), 0) ∧
      cleanPart P (Part.otherPart idp) = (some (Part.otherPart idp), false, 0) ∧
      (remove_tags_from_context ⟨sp, pp, xs ++ Message.other idm :: ys⟩ t).1.contexts
        = (cleanContexts (build_cleanup_pattern t) xs).1
          ++ Message.other idm :: (cleanContexts (build_cleanup_pattern t) ys).1 := by
  intro P idm idp t sp pp xs ys
  refine ⟨rfl, rfl, ?_⟩
  show (cleanContexts (build_cleanup_pattern t) (xs ++ Message.other idm :: ys)).1 = _
  rw [cleanContexts_append, cleanContexts_fst_cons]
  rfl

/-- Claim C10: the injection phase modifies only the prompt fields — the
history is never touched, and a field whose anchor buckets are empty keeps
its previous value. -/
theorem claim_C10 :
    ∀ (tags : List Tag) (req : ProviderRequest),
      (inject_tags tags req).contexts = req.contexts ∧
      (bucket tags Position.user_message_before = [] →
        bucket tags Position.user_message_after = [] →
          (inject_tags tags req).prompt = req.prompt) ∧
      (bucket tags Position.system_prompt = [] →
        (inject_tags tags req).system_prompt = req.system_prompt) := by
  intro tags req
  refine ⟨rfl, ?_, ?_⟩
  · intro hb ha
    simp [inject_tags, hb, ha]
  · intro hsys
    simp [inject_tags, hsys]

/-- Witness for C10 at a concrete system-anchored tag. -/
theorem claim_C10_witness :
    (inject_tags [⟨str "a", str "x", Position.system_prompt⟩]
        ⟨none, some (str "Hi"), [Message.plain (str "m")]⟩).contexts
      = [Message.plain (str "m")] ∧
    (inject_tags [⟨str "b", str "y", Position.user_message_before⟩]
        ⟨some (str "S"), some (str "Hi"), []⟩).system_prompt
      = some (str "S") := by
  constructor
  · exact (claim_C10 [⟨str "a", str "x", Position.system_prompt⟩]
      ⟨none, some (str "Hi"), [Message.plain (str "m")]⟩).1
  · exact (claim_C10 [⟨str "b", str "y", Position.user_message_before⟩]
      ⟨some (str "S"), some (str "Hi"), []⟩).2.2 (by decide)

/-- Claim C5 counterexample: with T1 named `a` whose content embeds
`<b>…</b>` and T2 named `b`, injecting T1 and then cleaning T2 removes a
span from inside T1's rendered block, which no longer appears in the
conversation. -/
theorem claim_C5_counterexample :
    containsSub
        (format_tag ⟨str "a", str "x<b>y</b>z", Position.user_message_after⟩)
        (orEmpty ((remove_tags_from_context
          (inject_tags [⟨str "a", str "x<b>y</b>z", Position.user_message_after⟩]
            ⟨none, none, []⟩)
          ⟨str "b", str "w", Position.user_message_after⟩).1.prompt)) = false := by
  decide

/-- Claim C5 (amended): for tags with distinct names, if after injecting T1
neither prompt field contains both of T2's delimiters (in particular when
neither T1's content nor the original conversation mentions T2's
delimiters), then cleanup for T2 leaves those fields untouched, so T1's
rendered block is still present in the conversation. -/
theorem claim_C5_amended :
    ∀ (t1 t2 : Tag) (req : ProviderRequest),
      t1.tag_name ≠ t2.tag_name →
      lacksBoth (build_cleanup_pattern t2) (orEmpty (inject_tags [t1] req).prompt) = true →
      lacksBoth (build_cleanup_pattern t2) (orEmpty (inject_tags [t1] req).system_prompt) = true →
      (containsSub (format_tag t1)
          (orEmpty ((remove_tags_from_context (inject_tags [t1] req) t2).1.prompt)) = true ∨
        containsSub (format_tag t1)
          (orEmpty ((remove_tags_from_context (inject_tags [t1] req) t2).1.system_prompt))
            = true) := by
  intro t1 t2 req _ hp hsys
  have hpu : (remove_tags_from_context (inject_tags [t1] req) t2).1.prompt
      = (inject_tags [t1] req).prompt := by
    show (cleanField (build_cleanup_pattern t2) (inject_tags [t1] req).prompt).1 = _
    rw [cleanField_unchanged hp]
  have hsu : (remove_tags_from_context (inject_tags [t1] req) t2).1.system_prompt
      = (inject_tags [t1] req).system_prompt := by
    show (cleanField (build_cleanup_pattern t2) (inject_tags [t1] req).system_prompt).1 = _
    rw [cleanField_unchanged hsys]
  rw [hpu, hsu]
  cases hpos : t1.position with
  | user_message_before =>
    left
    have hx : (inject_tags [t1] req).prompt
        = some ((format_tag t1 ++ str "\n\n") ++ orEmpty req.prompt) := by
      simp [inject_tags, bucket_single, hpos, joinNN]
    rw [hx]
    exact contains_append_right _ (contains_append_right _ (contains_self _))
  | user_message_after =>
    left
    have hx : (inject_tags [t1] req).prompt
        = some ((orEmpty req.prompt ++ str "\n\n") ++ format_tag t1) := by
      simp [inject_tags, bucket_single, hpos, joinNN]
    rw [hx]
    exact contains_append_left _ (contains_self _)
  | system_prompt =>
    right
    have hx : (inject_tags [t1] req).system_prompt
        = some ((orEmpty req.system_prompt ++ str "\n\n") ++ format_tag t1) := by
      simp [inject_tags, bucket_single, hpos, joinNN]
    rw [hx]
    exact contains_append_left _ (contains_self _)

/-- Witness for C5 at concrete non-overlapping tags. -/
theorem claim_C5_witness :
    containsSub (format_tag ⟨str "a", str "x", Position.user_message_after⟩)
        (orEmpty ((remove_tags_from_context
          (inject_tags [⟨str "a", str "x", Position.user_message_after⟩] ⟨none, none, []⟩)
          ⟨str "b", str "w", Position.user_message_after⟩).1.prompt)) = true ∨
    containsSub (format_tag ⟨str "a", str "x", Position.user_message_after⟩)
        (orEmpty ((remove_tags_from_context
          (inject_tags [⟨str "a", str "x", Position.user_message_after⟩] ⟨none, none, []⟩)
          ⟨str "b", str "w", Position.user_message_after⟩).1.system_prompt)) = true :=
  claim_C5_amended ⟨str "a", str "x", Position.user_message_after⟩
    ⟨str "b", str "w", Position.user_message_after⟩ ⟨none, none, []⟩
    (by decide) (by decide) (by decide)

/-- Claim C6 counterexample: a tag whose content contains its own footer
(`content = "x</a>y"`) round-trips to `"y\n</a>"`, not to the prior empty
prompt. -/
theorem claim_C6_counterexample :
    clean_string (orEmpty ((inject_tags
          [⟨str "a", str "x</a>y", Position.user_message_after⟩] ⟨none, none, []⟩).prompt))
        (build_cleanup_pattern ⟨str "a", str "x</a>y", Position.user_message_after⟩)
      = str "y\n</a>" ∧ str "y\n</a>" ≠ [] := by
  constructor <;> decide

/-- Claim C6 (amended): for every valid tag whose content does not contain
the tag's own footer, injecting the tag alone into an empty conversation and
then cleaning the resulting `userPrompt` with the tag's pattern removes
exactly the injected block, returning the prior (empty) prompt value. -/
theorem claim_C6_amended :
    ∀ (t : Tag), validTagName t = true →
      containsSub t.footer t.content = false →
      clean_string (orEmpty ((inject_tags [t] ⟨none, none, []⟩).prompt))
        (build_cleanup_pattern t) = [] := by
  intro t hv hc
  have hnl := tag_name_no_nl hv
  have hH := tag_header_ne_nil t
  have hnH := tag_header_no_nl hnl
  have hF := tag_footer_ne_nil t
  have hnF := tag_footer_no_nl hnl
  cases hpos : t.position with
  | system_prompt =>
    have hx : (inject_tags [t] (⟨none, none, []⟩ : ProviderRequest)).prompt = none := by
      simp [inject_tags, bucket_single, hpos]
    rw [hx]
    rfl
  | user_message_after =>
    have hx : (inject_tags [t] (⟨none, none, []⟩ : ProviderRequest)).prompt
        = some (str "\n\n" ++ format_tag t) := by
      simp [inject_tags, bucket_single, hpos, joinNN, orEmpty]
    rw [hx]
    show pyStrip (collapseNL (subRemove t.header t.footer (str "\n\n" ++ format_tag t))) = []
    rw [show str "\n\n" ++ format_tag t = '\n' :: ('\n' :: format_tag t) from rfl,
      subRemove_nl_step hH hnH, subRemove_nl_step hH hnH]
    have hfmt : format_tag t
        = t.header ++ ('\n' :: (t.content ++ ('\n' :: (t.footer ++ ['\n'])))) := by
      unfold format_tag
      rw [show str "\n" = ['\n'] from rfl]
      simp [List.append_assoc]
    rw [hfmt, subRemove_single_block hH hnH hF hnF hc (by intro d hd; simpa using hd)]
    decide
  | user_message_before =>
    have hx : (inject_tags [t] (⟨none, none, []⟩ : ProviderRequest)).prompt
        = some (format_tag t ++ str "\n\n") := by
      simp [inject_tags, bucket_single, hpos, joinNN, orEmpty]
    rw [hx]
    show pyStrip (collapseNL (subRemove t.header t.footer (format_tag t ++ str "\n\n"))) = []
    have hfmt : format_tag t ++ str "\n\n"
        = t.header ++ ('\n' :: (t.content ++ ('\n' :: (t.footer ++ ['\n', '\n', '\n'])))) := by
      unfold format_tag
      rw [show str "\n" = ['\n'] from rfl, show str "\n\n" = ['\n', '\n'] from rfl]
      simp [List.append_assoc]
    rw [hfmt, subRemove_single_block hH hnH hF hnF hc (by intro d hd; simpa using hd)]
    decide

/-- Witness for C6 at a concrete tag. -/
theorem claim_C6_witness :
    clean_string (orEmpty ((inject_tags [⟨str "a", str "x", Position.user_message_after⟩]
        ⟨none, none, []⟩).prompt))
      (build_cleanup_pattern ⟨str "a", str "x", Position.user_message_after⟩) = [] :=
  claim_C6_amended ⟨str "a", str "x", Position.user_message_after⟩ (by decide) (by decide)

/-- Claim C1 counterexample: the system prompt `"</a>x<a>"` (footer before
header) passes the presence guard, the pattern cannot match, and the
surviving surface still contains both delimiters of tag `a`. -/
theorem claim_C1_counterexample :
    str "</a>x<a>" ∈ textSurfaces (remove_tags_from_context
        ⟨some (str "</a>x<a>"), none, []⟩
        ⟨str "a", str "x", Position.user_message_after⟩).1 ∧
    lacksBoth (build_cleanup_pattern ⟨str "a", str "x", Position.user_message_after⟩)
      (str "</a>x<a>") = false := by
  constructor <;> decide

/-- Claim C1 (amended): if every text surface of the conversation is
residual-free for tag T (its single-pass removal result does not retain both
of T's delimiters — in particular when no footer precedes a header and
occurrences do not nest), then after `_remove_tags_from_context` no
surviving surface of `system_prompt`, `prompt` or `contexts` contains both
T's header and T's footer. -/
theorem claim_C1_amended :
    ∀ (t : Tag) (req : ProviderRequest), validTagName t = true →
      (∀ s ∈ textSurfaces req, residualFree (build_cleanup_pattern t) s = true) →
      ∀ s ∈ textSurfaces (remove_tags_from_context req t).1,
        lacksBoth (build_cleanup_pattern t) s = true := by
  intro t req hv hres s hs
  have hnl := tag_name_no_nl hv
  have hH : (build_cleanup_pattern t).header ≠ [] := tag_header_ne_nil t
  have hnH : '\n' ∉ (build_cleanup_pattern t).header := tag_header_no_nl hnl
  have hF : (build_cleanup_pattern t).footer ≠ [] := tag_footer_ne_nil t
  have hnF : '\n' ∉ (build_cleanup_pattern t).footer := tag_footer_no_nl hnl
  have hres1 : ∀ s' ∈ optSurface req.system_prompt,
      residualFree (build_cleanup_pattern t) s' = true := by
    intro s' hs'
    apply hres
    unfold textSurfaces
    simp [hs']
  have hres2 : ∀ s' ∈ optSurface req.prompt,
      residualFree (build_cleanup_pattern t) s' = true := by
    intro s' hs'
    apply hres
    unfold textSurfaces
    simp [hs']
  have hres3 : ∀ s' ∈ (req.contexts.map msgSurfaces).flatten,
      residualFree (build_cleanup_pattern t) s' = true := by
    intro s' hs'
    apply hres
    unfold textSurfaces
    simp [hs']
  have hsplit :
      s ∈ optSurface (cleanField (build_cleanup_pattern t) req.system_prompt).1 ∨
      s ∈ optSurface (cleanField (build_cleanup_pattern t) req.prompt).1 ∨
      s ∈ (((cleanContexts (build_cleanup_pattern t) req.contexts).1.map msgSurfaces).flatten) := by
    have heq : textSurfaces (remove_tags_from_context req t).1
        = optSurface (cleanField (build_cleanup_pattern t) req.system_prompt).1
          ++ optSurface (cleanField (build_cleanup_pattern t) req.prompt).1
          ++ ((cleanContexts (build_cleanup_pattern t) req.contexts).1.map msgSurfaces).flatten :=
      rfl
    rw [heq] at hs
    simpa [List.mem_append, or_assoc] using hs
  rcases hsplit with h | h | h
  · exact cleanField_lacksBoth hH hnH hF hnF hres1 s h
  · exact cleanField_lacksBoth hH hnH hF hnF hres2 s h
  · exact cleanContexts_lacksBoth hH hnH hF hnF req.contexts hres3 s h

/-- Witness for C1 at a concrete conversation. -/
theorem claim_C1_witness :
    lacksBoth (build_cleanup_pattern ⟨str "a", str "x", Position.user_message_after⟩)
      (str "sys") = true :=
  claim_C1_amended ⟨str "a", str "x", Position.user_message_after⟩
    ⟨some (str "sys <a>m</a>"), some (str "hello"), [Message.plain (str "<a>q</a>")]⟩
    (by decide) (by decide) (str "sys") (by decide)

/-- Claim C2 counterexample: with tag `a` and
`S = "<a<a>m</a>>x</a>"` (nested occurrences, only tag `a`'s delimiters),
one cleanup pass splices a fresh `<a>…</a>` block, so a second pass still
changes the string: `cleanString` is not idempotent on `S`. -/
theorem claim_C2_counterexample :
    clean_string (clean_string (str "<a<a>m</a>>x</a>")
        (build_cleanup_pattern ⟨str "a", str "x", Position.user_message_after⟩))
      (build_cleanup_pattern ⟨str "a", str "x", Position.user_message_after⟩)
      ≠ clean_string (str "<a<a>m</a>>x</a>")
        (build_cleanup_pattern ⟨str "a", str "x", Position.user_message_after⟩) := by
  decide

/-- Claim C2 (amended): `cleanString` is idempotent on every string whose
single-pass removal result no longer retains both delimiters of the tag
(in particular whenever tagged blocks are not nested); removal of nested
occurrences can splice a pair that survives one pass, as the counterexample
shows. -/
theorem claim_C2_amended :
    ∀ (t : Tag) (S : List Char), validTagName t = true →
      residualFree (build_cleanup_pattern t) S = true →
      clean_string (clean_string S (build_cleanup_pattern t)) (build_cleanup_pattern t)
        = clean_string S (build_cleanup_pattern t) := by
  intro t S hv hres
  have hnl := tag_name_no_nl hv
  have h2 : lacksBoth (build_cleanup_pattern t)
      (clean_string S (build_cleanup_pattern t)) = true :=
    lacksBoth_clean (tag_header_ne_nil t) (tag_header_no_nl hnl) (tag_footer_ne_nil t)
      (tag_footer_no_nl hnl) (residualFree_iff.mp hres)
  have h3 := subRemove_eq_self_of_lacksBoth h2
  show pyStrip (collapseNL (subRemove (build_cleanup_pattern t).header
      (build_cleanup_pattern t).footer (clean_string S (build_cleanup_pattern t)))) = _
  rw [h3]
  rw [show clean_string S (build_cleanup_pattern t)
      = pyStrip (collapseNL (subRemove (build_cleanup_pattern t).header
          (build_cleanup_pattern t).footer S)) from rfl]
  rw [collapse_eq_self _ _ le_rfl (contains_false_pyStrip (nl3_not_in_collapse _ _ le_rfl))]
  exact pyStrip_idem _

/-- Witness for C2 at a concrete non-nested string. -/
theorem claim_C2_witness :
    clean_string (clean_string (str "hello <a>m</a> world")
        (build_cleanup_pattern ⟨str "a", str "x", Position.user_message_after⟩))
      (build_cleanup_pattern ⟨str "a", str "x", Position.user_message_after⟩)
      = clean_string (str "hello <a>m</a> world")
        (build_cleanup_pattern ⟨str "a", str "x", Position.user_message_after⟩) :=
  claim_C2_amended ⟨str "a", str "x", Position.user_message_after⟩
    (str "hello <a>m</a> world") (by decide) (by decide)

end PromptTags
